import Mathlib

/-!
Verification of the matching core of the urlstashgui repository.

The repository contains two variants of the same Tkinter application:
FirefoxHistory_stashGUI.py (namespace FH below) and urlstashgui.py
(namespace US below).  Strings are modelled as List Char; the character
predicates str.isalnum / str.lower of Python are modelled on the ASCII
fragment by Char.isAlphanum / Char.toLower.  Loops of the source are
modelled either structurally or with an explicit fuel argument so that
every definition is executable and evaluates by decide / rfl.
-/

/-- Python s.lower(): lowercase every character (ASCII model). -/
def pyLower (s : List Char) : List Char := s.map Char.toLower

/-- Shorthand turning a string literal into the List Char model. -/
def str (s : String) : List Char := s.data

namespace FH

/-- FirefoxHistory_stashGUI.sanitize_for_windows: if the filename lowercased
ends with ".mp4" drop the last four characters, keep only alphanumeric
characters, and lowercase the result. -/
def sanitize_for_windows (filename : List Char) : List Char :=
  let filename :=
    if (str ".mp4").isSuffixOf (pyLower filename) then
      filename.take (filename.length - 4)
    else filename
  pyLower (filename.filter Char.isAlphanum)

end FH

namespace US

/-- urlstashgui.sanitize_for_windows: keep only alphanumeric characters and
lowercase (no extension or dash-suffix handling). -/
def sanitize_for_windows (filename : List Char) : List Char :=
  pyLower (filename.filter Char.isAlphanum)

/-- urlstashgui.remove_dash_number_suffix, the substitution
re.sub(r"-\d\d$", "", text): the pattern matches exactly when the string has
at least three characters, its last two characters are digits and the third
from last is a dash; then those three characters are removed.  Empty input
yields empty output (also covered by the catch-all arm). -/
def remove_dash_number_suffix (text : List Char) : List Char :=
  match text.reverse with
  | d1 :: d2 :: d3 :: rest =>
      if d1.isDigit ∧ d2.isDigit ∧ d3 = '-' then rest.reverse else text
  | _ => text

end US

/-- Model of the regular-expression substitution re.sub(r"-\d+$", "", s) used
by FirefoxHistory_stashGUI.get_firefox_urls: the pattern matches exactly when
the longest all-digit suffix of s (the takeWhile of the reversal) is nonempty
and is preceded by a dash, and the substitution removes that dash and the
digits. -/
def stripDashDigits (s : List Char) : List Char :=
  match s.reverse.dropWhile Char.isDigit with
  | c :: rest2 =>
      if c = '-' ∧ ¬(s.reverse.takeWhile Char.isDigit).isEmpty then
        rest2.reverse
      else s
  | [] => s

/-- Length of the trailing digit block of s when that block is nonempty and
preceded by a dash (the suffix matched by "-\d+$"), and 0 when s has no such
suffix. -/
def dashDigitSuffixLen (s : List Char) : Nat :=
  match s.reverse.dropWhile Char.isDigit with
  | c :: _ => if c = '-' then (s.reverse.takeWhile Char.isDigit).length else 0
  | [] => 0

-- Character-level facts about the ASCII model of str.lower.

theorem Char.isUpper_iff_toNat (c : Char) :
    c.isUpper = true ↔ 65 ≤ c.toNat ∧ c.toNat ≤ 90 := by
  simp only [Char.isUpper, Bool.and_eq_true, decide_eq_true_eq, ge_iff_le]
  exact ⟨fun ⟨a, b⟩ => ⟨a, b⟩, fun ⟨a, b⟩ => ⟨a, b⟩⟩

theorem Char.isLower_iff_toNat (c : Char) :
    c.isLower = true ↔ 97 ≤ c.toNat ∧ c.toNat ≤ 122 := by
  simp only [Char.isLower, Bool.and_eq_true, decide_eq_true_eq, ge_iff_le]
  exact ⟨fun ⟨a, b⟩ => ⟨a, b⟩, fun ⟨a, b⟩ => ⟨a, b⟩⟩

theorem Char.isDigit_iff_toNat (c : Char) :
    c.isDigit = true ↔ 48 ≤ c.toNat ∧ c.toNat ≤ 57 := by
  simp only [Char.isDigit, Bool.and_eq_true, decide_eq_true_eq, ge_iff_le]
  exact ⟨fun ⟨a, b⟩ => ⟨a, b⟩, fun ⟨a, b⟩ => ⟨a, b⟩⟩

theorem Char.isAlphanum_iff_toNat (c : Char) :
    c.isAlphanum = true ↔
      (65 ≤ c.toNat ∧ c.toNat ≤ 90) ∨ (97 ≤ c.toNat ∧ c.toNat ≤ 122) ∨
        (48 ≤ c.toNat ∧ c.toNat ≤ 57) := by
  simp only [Char.isAlphanum, Char.isAlpha, Bool.or_eq_true,
    Char.isUpper_iff_toNat, Char.isLower_iff_toNat, Char.isDigit_iff_toNat]
  tauto

theorem Char.isUpper_eq_false_of_toNat (c : Char)
    (h : c.toNat ≤ 64 ∨ 91 ≤ c.toNat) : c.isUpper = false := by
  cases hu : c.isUpper with
  | false => rfl
  | true =>
      exfalso
      have := (Char.isUpper_iff_toNat c).1 hu
      omega

theorem Char.isWhitespace_eq_false_of_toNat (c : Char)
    (h : 33 ≤ c.toNat) : c.isWhitespace = false := by
  have h1 : c ≠ ' ' := fun he => by subst he; exact absurd h (by decide)
  have h2 : c ≠ '\t' := fun he => by subst he; exact absurd h (by decide)
  have h3 : c ≠ '\x0d' := fun he => by subst he; exact absurd h (by decide)
  have h4 : c ≠ '\n' := fun he => by subst he; exact absurd h (by decide)
  simp [Char.isWhitespace, h1, h2, h3, h4]

theorem Char.toNat_toLower_of_isUpper (c : Char) (h : c.isUpper = true) :
    c.toLower.toNat = c.toNat + 32 := by
  have hb := (Char.isUpper_iff_toNat c).1 h
  have hv : (c.toNat + 32).isValidChar := Or.inl (by omega)
  rw [Char.toLower, if_pos (by omega)]
  rw [Char.ofNat, dif_pos hv]
  simp [Char.ofNatAux, Char.toNat, UInt32.toNat, BitVec.toNat_ofNatLt]

theorem Char.toLower_of_not_isUpper (c : Char) (h : c.isUpper = false) :
    c.toLower = c := by
  rw [Char.toLower, if_neg]
  intro hc
  have : c.isUpper = true := (Char.isUpper_iff_toNat c).2 ⟨hc.1, hc.2⟩
  rw [h] at this
  exact Bool.false_ne_true this

theorem Char.toLower_alnum (c : Char) (h : c.isAlphanum = true) :
    c.toLower.isAlphanum = true ∧ c.toLower.isUpper = false ∧
      c.toLower.isWhitespace = false := by
  cases hu : c.isUpper with
  | true =>
      have ht := Char.toNat_toLower_of_isUpper c hu
      have hb := (Char.isUpper_iff_toNat c).1 hu
      refine ⟨?_, ?_, ?_⟩
      · exact (Char.isAlphanum_iff_toNat _).2 (Or.inr (Or.inl (by omega)))
      · exact Char.isUpper_eq_false_of_toNat _ (Or.inr (by omega))
      · exact Char.isWhitespace_eq_false_of_toNat _ (by omega)
  | false =>
      rw [Char.toLower_of_not_isUpper c hu]
      have hb := (Char.isAlphanum_iff_toNat c).1 h
      have hb2 : ¬ (65 ≤ c.toNat ∧ c.toNat ≤ 90) := by
        intro hc
        rw [(Char.isUpper_iff_toNat c).2 hc] at hu
        simp at hu
      refine ⟨h, hu, ?_⟩
      exact Char.isWhitespace_eq_false_of_toNat _ (by omega)

/-- Both normalizer outputs consist of alphanumeric, non-uppercase,
non-whitespace characters. -/
theorem sanitize_chars (s : List Char) :
    (∀ c ∈ FH.sanitize_for_windows s,
        c.isAlphanum = true ∧ c.isUpper = false ∧ c.isWhitespace = false) ∧
    (∀ c ∈ US.sanitize_for_windows s,
        c.isAlphanum = true ∧ c.isUpper = false ∧ c.isWhitespace = false) := by
  constructor
  · intro c hc
    simp only [FH.sanitize_for_windows, pyLower, List.mem_map, List.mem_filter] at hc
    obtain ⟨d, ⟨_, hd⟩, rfl⟩ := hc
    exact Char.toLower_alnum d hd
  · intro c hc
    simp only [US.sanitize_for_windows, pyLower, List.mem_map, List.mem_filter] at hc
    obtain ⟨d, ⟨_, hd⟩, rfl⟩ := hc
    exact Char.toLower_alnum d hd

/-- C6: both variants of the Normalizer are total functions (they are plain
Lean functions on List Char), deterministic, their output consists only of
lowercase-or-digit alphanumeric characters (never whitespace, punctuation or
an uppercase letter), and the empty input yields the empty key. -/
theorem normalizer_total_lowercase_alnum :
    ∀ s : List Char,
      (∀ c ∈ FH.sanitize_for_windows s,
          c.isAlphanum = true ∧ c.isUpper = false ∧ c.isWhitespace = false) ∧
      (∀ c ∈ US.sanitize_for_windows s,
          c.isAlphanum = true ∧ c.isUpper = false ∧ c.isWhitespace = false) ∧
      FH.sanitize_for_windows [] = [] ∧ US.sanitize_for_windows [] = [] := by
  intro s
  exact ⟨(sanitize_chars s).1, (sanitize_chars s).2, rfl, rfl⟩

-- The two trailing-suffix rules (C9).

theorem remove_dash_eq_self (s : List Char)
    (h : ∀ d1 d2 d3 t, s.reverse = d1 :: d2 :: d3 :: t →
      ¬(d1.isDigit ∧ d2.isDigit ∧ d3 = '-')) :
    US.remove_dash_number_suffix s = s := by
  unfold US.remove_dash_number_suffix
  rcases hr : s.reverse with _ | ⟨d1, _ | ⟨d2, _ | ⟨d3, t⟩⟩⟩
  · rfl
  · rfl
  · rfl
  · simp only [if_neg (h d1 d2 d3 t hr)]

theorem remove_dash_eq_of_match (s : List Char) (d1 d2 : Char) (t : List Char)
    (hr : s.reverse = d1 :: d2 :: '-' :: t)
    (h1 : d1.isDigit) (h2 : d2.isDigit) :
    US.remove_dash_number_suffix s = t.reverse := by
  unfold US.remove_dash_number_suffix
  rw [hr]
  simp [h1, h2]

theorem strip_eq_self_of_nil (s : List Char)
    (hd : s.reverse.dropWhile Char.isDigit = []) : stripDashDigits s = s := by
  unfold stripDashDigits
  rw [hd]

theorem strip_eq_self_of_head (s : List Char) (c : Char) (t : List Char)
    (hd : s.reverse.dropWhile Char.isDigit = c :: t)
    (hne : ¬(c = '-' ∧ ¬(s.reverse.takeWhile Char.isDigit).isEmpty)) :
    stripDashDigits s = s := by
  unfold stripDashDigits
  rw [hd]
  simp only [if_neg hne]

theorem strip_eq_of_dash (s : List Char) (t : List Char)
    (hd : s.reverse.dropWhile Char.isDigit = '-' :: t)
    (hds : ¬(s.reverse.takeWhile Char.isDigit).isEmpty = true) :
    stripDashDigits s = t.reverse := by
  unfold stripDashDigits
  rw [hd]
  simp [hds]

theorem dsl_eq_zero_of_nil (s : List Char)
    (hd : s.reverse.dropWhile Char.isDigit = []) : dashDigitSuffixLen s = 0 := by
  unfold dashDigitSuffixLen
  rw [hd]

theorem dsl_eq_zero_of_head (s : List Char) (c : Char) (t : List Char)
    (hd : s.reverse.dropWhile Char.isDigit = c :: t) (hne : c ≠ '-') :
    dashDigitSuffixLen s = 0 := by
  unfold dashDigitSuffixLen
  rw [hd]
  simp only [if_neg hne]

theorem dsl_eq_len_of_dash (s : List Char) (t : List Char)
    (hd : s.reverse.dropWhile Char.isDigit = '-' :: t) :
    dashDigitSuffixLen s = (s.reverse.takeWhile Char.isDigit).length := by
  unfold dashDigitSuffixLen
  rw [hd]
  simp

theorem strip_agree_iff (s : List Char) :
    stripDashDigits s = US.remove_dash_number_suffix s ↔
      (dashDigitSuffixLen s = 2 ∨ dashDigitSuffixLen s = 0) := by
  have hrev := (List.takeWhile_append_dropWhile Char.isDigit s.reverse).symm
  rcases hd : s.reverse.dropWhile Char.isDigit with _ | ⟨c, t⟩
  · -- the reversed string consists entirely of digits: neither rule fires
    rw [hd, List.append_nil] at hrev
    have hrem : US.remove_dash_number_suffix s = s := by
      apply remove_dash_eq_self
      intro d1 d2 d3 tt hr hguard
      have hmem : d3 ∈ s.reverse.takeWhile Char.isDigit := by
        rw [← hrev, hr]
        simp
      have hdig := List.mem_takeWhile_imp hmem
      rw [hguard.2.2] at hdig
      exact absurd hdig (by decide)
    rw [strip_eq_self_of_nil s hd, hrem, dsl_eq_zero_of_nil s hd]
    simp
  · have hc : Char.isDigit c = false := by
      have hh := List.head?_dropWhile_not Char.isDigit s.reverse
      rw [hd] at hh
      simpa using hh
    rw [hd] at hrev
    by_cases hcdash : c = '-'
    · subst hcdash
      have hdsl := dsl_eq_len_of_dash s t hd
      rcases ht : s.reverse.takeWhile Char.isDigit with _ | ⟨e1, _ | ⟨e2, _ | ⟨e3, ds3⟩⟩⟩
      · -- no digit block before the dash: neither rule fires
        rw [ht] at hrev hdsl
        simp only [List.nil_append] at hrev
        have hstrip : stripDashDigits s = s := by
          apply strip_eq_self_of_head s '-' t hd
          rw [ht]
          simp
        have hrem : US.remove_dash_number_suffix s = s := by
          apply remove_dash_eq_self
          intro d1 d2 d3 tt hr hguard
          rw [hrev] at hr
          simp only [List.cons.injEq] at hr
          rw [← hr.1] at hguard
          exact absurd hguard.1 (by decide)
        rw [hstrip, hrem, hdsl]
        simp
      · -- exactly one digit: only the FirefoxHistory rule fires
        rw [ht] at hrev hdsl
        simp only [List.cons_append, List.nil_append] at hrev
        have he1 : e1.isDigit = true :=
          List.mem_takeWhile_imp (by rw [ht]; simp)
        have hstrip : stripDashDigits s = t.reverse := by
          apply strip_eq_of_dash s t hd
          rw [ht]
          simp
        have hrem : US.remove_dash_number_suffix s = s := by
          apply remove_dash_eq_self
          intro d1 d2 d3 tt hr hguard
          rw [hrev] at hr
          simp only [List.cons.injEq] at hr
          rw [← hr.2.1] at hguard
          exact absurd hguard.2.1 (by decide)
        have hlen : s.length = t.length + 2 := by
          have := congrArg List.length hrev
          simpa using this
        rw [hstrip, hrem, hdsl]
        constructor
        · intro heq
          have := congrArg List.length heq
          simp at this
          omega
        · intro h
          rcases h with h | h <;> simp at h
      · -- exactly two digits: the two rules agree
        rw [ht] at hrev hdsl
        simp only [List.cons_append, List.nil_append] at hrev
        have he1 : e1.isDigit = true :=
          List.mem_takeWhile_imp (by rw [ht]; simp)
        have he2 : e2.isDigit = true :=
          List.mem_takeWhile_imp (by rw [ht]; simp)
        have hstrip : stripDashDigits s = t.reverse := by
          apply strip_eq_of_dash s t hd
          rw [ht]
          simp
        have hrem := remove_dash_eq_of_match s e1 e2 t hrev he1 he2
        rw [hstrip, hrem, hdsl]
        simp
      · -- three or more digits: only the FirefoxHistory rule fires
        rw [ht] at hrev hdsl
        simp only [List.cons_append] at hrev
        have he3 : e3.isDigit = true :=
          List.mem_takeWhile_imp (by rw [ht]; simp)
        have hstrip : stripDashDigits s = t.reverse := by
          apply strip_eq_of_dash s t hd
          rw [ht]
          simp
        have hrem : US.remove_dash_number_suffix s = s := by
          apply remove_dash_eq_self
          intro d1 d2 d3 tt hr hguard
          rw [hrev] at hr
          simp only [List.cons.injEq] at hr
          rw [← hr.2.2.1] at hguard
          rw [hguard.2.2] at he3
          exact absurd he3 (by decide)
        have hlen : s.length = ds3.length + t.length + 4 := by
          have := congrArg List.length hrev
          simp at this
          omega
        rw [hstrip, hrem, hdsl]
        constructor
        · intro heq
          have := congrArg List.length heq
          simp at this
          omega
        · intro h
          rcases h with h | h <;> simp at h
    · -- the character before the digit block is not a dash: neither fires
      have hstrip : stripDashDigits s = s :=
        strip_eq_self_of_head s c t hd (fun hq => hcdash hq.1)
      have hdsl := dsl_eq_zero_of_head s c t hd hcdash
      have hrem : US.remove_dash_number_suffix s = s := by
        apply remove_dash_eq_self
        intro d1 d2 d3 tt hr hguard
        rcases ht : s.reverse.takeWhile Char.isDigit with _ | ⟨e1, _ | ⟨e2, _ | ⟨e3, ds3⟩⟩⟩
        · rw [ht] at hrev
          simp only [List.nil_append] at hrev
          rw [hrev] at hr
          simp only [List.cons.injEq] at hr
          rw [← hr.1] at hguard
          rw [hguard.1] at hc
          exact absurd hc (by decide)
        · rw [ht] at hrev
          simp only [List.cons_append, List.nil_append] at hrev
          rw [hrev] at hr
          simp only [List.cons.injEq] at hr
          rw [← hr.2.1] at hguard
          rw [hguard.2.1] at hc
          exact absurd hc (by decide)
        · rw [ht] at hrev
          simp only [List.cons_append, List.nil_append] at hrev
          rw [hrev] at hr
          simp only [List.cons.injEq] at hr
          rw [← hr.2.2.1] at hguard
          exact absurd hguard.2.2 hcdash
        · rw [ht] at hrev
          simp only [List.cons_append] at hrev
          rw [hrev] at hr
          simp only [List.cons.injEq] at hr
          have he3 : e3.isDigit = true :=
            List.mem_takeWhile_imp (by rw [ht]; simp)
          rw [← hr.2.2.1] at hguard
          rw [hguard.2.2] at he3
          exact absurd he3 (by decide)
      rw [hstrip, hrem, hdsl]
      simp

/-- C9: the two trailing-suffix-stripping rules are not equivalent: they
differ on "clip-1" (one digit) and on "clip-123" (three digits), and they
agree exactly on the strings whose trailing dash-digit suffix has two digits
or that have no trailing dash-digit suffix at all. -/
theorem suffix_rules_not_equivalent :
    stripDashDigits (str "clip-1") ≠ US.remove_dash_number_suffix (str "clip-1") ∧
    stripDashDigits (str "clip-123") ≠ US.remove_dash_number_suffix (str "clip-123") ∧
    ∀ s : List Char,
      stripDashDigits s = US.remove_dash_number_suffix s ↔
        (dashDigitSuffixLen s = 2 ∨ dashDigitSuffixLen s = 0) :=
  ⟨by decide, by decide, strip_agree_iff⟩

/-!
Model of difflib.SequenceMatcher(None, a, b).ratio() as called by
FirefoxHistory_stashGUI.get_firefox_urls.  With isjunk = None the junk set
is empty, so the two junk-extension loops of find_longest_match never run;
the autojunk heuristic stands: when b has at least 200 elements, an element
occurring more than len(b)/100 + 1 times is dropped from the b2j index (it
cannot start a match in the dynamic program, though the final extension
loops may still cross it).  The recursions of the dynamic program and of
get_matching_blocks are written structurally (with fuel where Python
recurses on shrinking intervals) so that they evaluate by decide: each
recursive call of the block recursion strictly decreases
(ahi - alo) + (bhi - blo), so the fuel total + 1 supplied in seqRatio is
never exhausted.
-/

/-- Autojunk: an element of b is popular when b has at least 200 elements and
the element occurs more than len(b)/100 + 1 times in b. -/
def bPopular (b : List Char) (c : Char) : Bool :=
  decide (200 ≤ b.length) && decide (b.length / 100 + 1 < b.count c)

/-- Position j of b can take part in the dynamic program at row i: it lies in
the window, the characters agree, and b[j] is not junked by autojunk. -/
def jElig (a b : List Char) (alo blo bhi i j : Nat) : Bool :=
  decide (alo ≤ i) && decide (blo ≤ j) && decide (j < bhi) &&
    decide (i < a.length) && decide (j < b.length) &&
    decide (a.getD i ' ' = b.getD j ' ') && !bPopular b (b.getD j ' ')

/-- The j2len dynamic program of find_longest_match: mlen a b alo blo bhi i j
is the value stored for key j after processing row i (0 when absent), i.e.
the length of the longest common block ending at a[i], b[j] inside the
window. -/
def mlen (a b : List Char) (alo blo bhi : Nat) : Nat → Nat → Nat
  | 0, j => if jElig a b alo blo bhi 0 j then 1 else 0
  | i + 1, j =>
      if jElig a b alo blo bhi (i + 1) j then
        (if alo ≤ i ∧ blo < j then mlen a b alo blo bhi i (j - 1) else 0) + 1
      else 0

/-- One row of the best-block search: fold over the candidate j positions in
increasing order, replacing the current best exactly when the block ending at
(i, j) is strictly longer (Python keeps the first best on ties). -/
def bestStep (a b : List Char) (alo blo bhi i : Nat)
    (acc : Nat × Nat × Nat) : Nat × Nat × Nat :=
  (List.range' blo (bhi - blo)).foldl
    (fun acc2 j =>
      let k := mlen a b alo blo bhi i j
      if acc2.2.2 < k then (i + 1 - k, j + 1 - k, k) else acc2) acc

/-- The main loop of find_longest_match: rows i from alo to ahi, starting
from the triple (alo, blo, 0). -/
def bestTriple (a b : List Char) (alo ahi blo bhi : Nat) : Nat × Nat × Nat :=
  (List.range' alo (ahi - alo)).foldl
    (fun acc i => bestStep a b alo blo bhi i acc) (alo, blo, 0)

/-- The backward extension loop of find_longest_match (the non-junk one; the
junk one never fires since the junk set is empty): while besti > alo and
bestj > blo and a[besti-1] == b[bestj-1], widen the block by one to the left.
The bounds besti-1 < len a, bestj-1 < len b always hold at the call sites and
keep the list reads meaningful. -/
def extendLow (a b : List Char) (alo blo : Nat) : Nat → Nat → Nat → Nat × Nat × Nat
  | 0, j, k => (0, j, k)
  | i + 1, j, k =>
      if alo ≤ i ∧ blo < j ∧ i < a.length ∧ j - 1 < b.length ∧
          a.getD i ' ' = b.getD (j - 1) ' ' then
        extendLow a b alo blo i (j - 1) (k + 1)
      else (i + 1, j, k)

/-- The forward extension loop of find_longest_match: while besti+bestk < ahi
and bestj+bestk < bhi and a[besti+bestk] == b[bestj+bestk], widen the block
by one to the right.  The fuel argument bounds the iterations; ahi + 1 always
suffices since each step needs i + k < ahi. -/
def extendHigh (a b : List Char) (ahi bhi i j : Nat) : Nat → Nat → Nat
  | 0, k => k
  | f + 1, k =>
      if i + k < ahi ∧ j + k < bhi ∧ i + k < a.length ∧ j + k < b.length ∧
          a.getD (i + k) ' ' = b.getD (j + k) ' ' then
        extendHigh a b ahi bhi i j f (k + 1)
      else k

/-- The backward extension applied to a best triple. -/
def withLow (a b : List Char) (alo blo : Nat) (r : Nat × Nat × Nat) :
    Nat × Nat × Nat :=
  extendLow a b alo blo r.1 r.2.1 r.2.2

/-- The forward extension applied to a best triple. -/
def withHigh (a b : List Char) (ahi bhi : Nat) (r : Nat × Nat × Nat) :
    Nat × Nat × Nat :=
  (r.1, r.2.1, extendHigh a b ahi bhi r.1 r.2.1 (ahi + 1) r.2.2)

/-- find_longest_match for SequenceMatcher(None, a, b) on the window
[alo, ahi) x [blo, bhi). -/
def findLongestMatch (a b : List Char) (alo ahi blo bhi : Nat) : Nat × Nat × Nat :=
  withHigh a b ahi bhi (withLow a b alo blo (bestTriple a b alo ahi blo bhi))

/-- Total number of matched elements over all matching blocks (the M of
ratio = 2M/T): the recursion of get_matching_blocks, summing only the block
sizes (the queue order of Python does not affect the sum). -/
def matchTotal (a b : List Char) : Nat → Nat → Nat → Nat → Nat → Nat
  | 0, _, _, _, _ => 0
  | f + 1, alo, ahi, blo, bhi =>
      let r := findLongestMatch a b alo ahi blo bhi
      if r.2.2 = 0 then 0
      else
        matchTotal a b f alo r.1 blo r.2.1 + r.2.2 +
          matchTotal a b f (r.1 + r.2.2) ahi (r.2.1 + r.2.2) bhi

/-- A score, kept as an exact fraction num/den with positive denominator.
Python compares float ratios; the model compares the exact rationals (the
idealization the specification also uses), and keeps them as Nat pairs so
that every comparison is kernel-computable. -/
structure Score where
  num : Nat
  den : Nat
  deriving DecidableEq, Repr

/-- The rational value of a score. -/
def Score.toRat (p : Score) : ℚ := (p.num : ℚ) / (p.den : ℚ)

/-- Strict comparison of two scores by cross multiplication (dens are
positive at every use). -/
def Score.lt (p q : Score) : Bool := decide (p.num * q.den < q.num * p.den)

/-- The acceptance test best_ratio >= 0.9 by cross multiplication. -/
def Score.thresholdLe (r : Score) : Bool := decide (9 * r.den ≤ 10 * r.num)

/-- difflib SequenceMatcher(None, a, b).ratio() = 2.0 * M / T where T is the
total length (and 1.0 when both sequences are empty), as an exact fraction. -/
def seqRatio (a b : List Char) : Score :=
  if a.length + b.length = 0 then ⟨1, 1⟩
  else
    ⟨2 * matchTotal a b (a.length + b.length + 1) 0 a.length 0 b.length,
      a.length + b.length⟩

-- Window bounds satisfied by find_longest_match results.

/-- A candidate match triple is either the untouched initial triple
(alo, blo, 0) or a block lying inside the window. -/
def TripleOK (alo ahi blo bhi : Nat) (x : Nat × Nat × Nat) : Prop :=
  x = (alo, blo, 0) ∨
    (alo ≤ x.1 ∧ x.1 + x.2.2 ≤ ahi ∧ blo ≤ x.2.1 ∧ x.2.1 + x.2.2 ≤ bhi)

theorem TripleOK_mk (alo ahi blo bhi i j k : Nat) :
    TripleOK alo ahi blo bhi (i, j, k) ↔
      ((i = alo ∧ j = blo ∧ k = 0) ∨
        (alo ≤ i ∧ i + k ≤ ahi ∧ blo ≤ j ∧ j + k ≤ bhi)) := by
  unfold TripleOK
  simp [Prod.mk.injEq]

theorem mlen_le (a b : List Char) (alo blo bhi : Nat) :
    ∀ i j, mlen a b alo blo bhi i j = 0 ∨
      (mlen a b alo blo bhi i j + alo ≤ i + 1 ∧
        mlen a b alo blo bhi i j + blo ≤ j + 1) := by
  intro i
  induction i with
  | zero =>
      intro j
      unfold mlen
      split
      · rename_i h
        simp only [jElig, Bool.and_eq_true, decide_eq_true_eq, and_assoc] at h
        obtain ⟨h1, h2, h3, h4, h5, h6, h7⟩ := h
        right
        omega
      · left
        rfl
  | succ i ih =>
      intro j
      unfold mlen
      split
      · rename_i h
        simp only [jElig, Bool.and_eq_true, decide_eq_true_eq, and_assoc] at h
        obtain ⟨h1, h2, h3, h4, h5, h6, h7⟩ := h
        right
        split
        · rename_i hs
          obtain ⟨hs1, hs2⟩ := hs
          rcases ih (j - 1) with hm | ⟨hm1, hm2⟩ <;> omega
        · omega
      · left
        rfl

theorem bestStep_ok (a b : List Char) (alo ahi blo bhi i : Nat)
    (hi1 : alo ≤ i) (hi2 : i < ahi) (acc : Nat × Nat × Nat)
    (hacc : TripleOK alo ahi blo bhi acc) :
    TripleOK alo ahi blo bhi (bestStep a b alo blo bhi i acc) := by
  unfold bestStep
  have main : ∀ (l : List Nat), (∀ j ∈ l, blo ≤ j ∧ j < bhi) →
      ∀ acc2 : Nat × Nat × Nat, TripleOK alo ahi blo bhi acc2 →
        TripleOK alo ahi blo bhi
          (l.foldl (fun acc2 j =>
            let k := mlen a b alo blo bhi i j
            if acc2.2.2 < k then (i + 1 - k, j + 1 - k, k) else acc2) acc2) := by
    intro l
    induction l with
    | nil => intro _ acc2 h; exact h
    | cons j rest ih =>
        intro hl acc2 h
        simp only [List.foldl_cons]
        apply ih (fun x hx => hl x (List.mem_cons_of_mem _ hx))
        by_cases hk : acc2.2.2 < mlen a b alo blo bhi i j
        · simp only [if_pos hk]
          rw [TripleOK_mk]
          right
          obtain ⟨hj1, hj2⟩ := hl j (List.mem_cons_self _ _)
          rcases mlen_le a b alo blo bhi i j with hm | ⟨hm1, hm2⟩
          · exact absurd hk (by omega)
          · refine ⟨by omega, by omega, by omega, by omega⟩
        · simp only [if_neg hk]
          exact h
  apply main
  · intro j hj
    rw [List.mem_range'_1] at hj
    omega
  · exact hacc

theorem bestTriple_ok (a b : List Char) (alo ahi blo bhi : Nat) :
    TripleOK alo ahi blo bhi (bestTriple a b alo ahi blo bhi) := by
  unfold bestTriple
  have main : ∀ (l : List Nat), (∀ i ∈ l, alo ≤ i ∧ i < ahi) →
      ∀ acc : Nat × Nat × Nat, TripleOK alo ahi blo bhi acc →
        TripleOK alo ahi blo bhi
          (l.foldl (fun acc i => bestStep a b alo blo bhi i acc) acc) := by
    intro l
    induction l with
    | nil => intro _ acc h; exact h
    | cons i rest ih =>
        intro hl acc h
        simp only [List.foldl_cons]
        apply ih (fun x hx => hl x (List.mem_cons_of_mem _ hx))
        have hi := hl i (List.mem_cons_self _ _)
        exact bestStep_ok a b alo ahi blo bhi i hi.1 hi.2 acc h
  apply main
  · intro i hi
    rw [List.mem_range'_1] at hi
    omega
  · exact Or.inl rfl

theorem extendLow_ok (a b : List Char) (alo ahi blo bhi : Nat) :
    ∀ i j k, TripleOK alo ahi blo bhi (i, j, k) →
      TripleOK alo ahi blo bhi (extendLow a b alo blo i j k) := by
  intro i
  induction i with
  | zero =>
      intro j k h
      exact h
  | succ i ih =>
      intro j k h
      unfold extendLow
      split
      · rename_i hcond
        obtain ⟨hc1, hc2, hc3, hc4, hc5⟩ := hcond
        rw [TripleOK_mk] at h
        apply ih
        rw [TripleOK_mk]
        rcases h with ⟨h1, h2, h3⟩ | ⟨h1, h2, h3, h4⟩
        · exact absurd hc2 (by omega)
        · right
          refine ⟨by omega, by omega, by omega, by omega⟩
      · exact h

theorem extendHigh_bounds (a b : List Char) (ahi bhi i j : Nat) :
    ∀ f k, i + k ≤ ahi → j + k ≤ bhi →
      i + extendHigh a b ahi bhi i j f k ≤ ahi ∧
        j + extendHigh a b ahi bhi i j f k ≤ bhi := by
  intro f
  induction f with
  | zero => intro k h1 h2; exact ⟨h1, h2⟩
  | succ f ih =>
      intro k h1 h2
      unfold extendHigh
      split
      · rename_i hc
        exact ih (k + 1) (by omega) (by omega)
      · exact ⟨h1, h2⟩

theorem extendHigh_stuck (a b : List Char) (ahi bhi i j : Nat) (f k : Nat)
    (h : ¬(i + k < ahi ∧ j + k < bhi)) :
    extendHigh a b ahi bhi i j f k = k := by
  cases f with
  | zero => rfl
  | succ f =>
      unfold extendHigh
      rw [if_neg]
      intro hc
      exact h ⟨hc.1, hc.2.1⟩

theorem withLow_ok (a b : List Char) (alo ahi blo bhi : Nat)
    (r : Nat × Nat × Nat) (h : TripleOK alo ahi blo bhi r) :
    TripleOK alo ahi blo bhi (withLow a b alo blo r) := by
  rcases r with ⟨i, j, k⟩
  exact extendLow_ok a b alo ahi blo bhi i j k h

theorem withHigh_ok (a b : List Char) (alo ahi blo bhi : Nat)
    (r : Nat × Nat × Nat) (h : TripleOK alo ahi blo bhi r) :
    TripleOK alo ahi blo bhi (withHigh a b ahi bhi r) := by
  rcases r with ⟨i, j, k⟩
  rw [TripleOK_mk] at h
  unfold withHigh
  dsimp only
  by_cases hin : i + k ≤ ahi ∧ j + k ≤ bhi
  · obtain ⟨hb1, hb2⟩ := extendHigh_bounds a b ahi bhi i j (ahi + 1) k hin.1 hin.2
    rw [TripleOK_mk]
    right
    rcases h with ⟨h1, h2, h3⟩ | ⟨h1, h2, h3, h4⟩
    · exact ⟨by omega, hb1, by omega, hb2⟩
    · exact ⟨h1, hb1, h3, hb2⟩
  · rw [extendHigh_stuck a b ahi bhi i j _ k
      (fun hc => hin ⟨Nat.le_of_lt hc.1, Nat.le_of_lt hc.2⟩)]
    rw [TripleOK_mk]
    exact h

theorem findLongestMatch_ok (a b : List Char) (alo ahi blo bhi : Nat) :
    TripleOK alo ahi blo bhi (findLongestMatch a b alo ahi blo bhi) := by
  unfold findLongestMatch
  exact withHigh_ok a b alo ahi blo bhi _
    (withLow_ok a b alo ahi blo bhi _ (bestTriple_ok a b alo ahi blo bhi))

theorem matchTotal_le (a b : List Char) :
    ∀ f alo ahi blo bhi,
      matchTotal a b f alo ahi blo bhi ≤ ahi - alo ∧
        matchTotal a b f alo ahi blo bhi ≤ bhi - blo := by
  intro f
  induction f with
  | zero =>
      intro alo ahi blo bhi
      constructor <;> simp [matchTotal]
  | succ f ih =>
      intro alo ahi blo bhi
      have hok := findLongestMatch_ok a b alo ahi blo bhi
      rcases hr : findLongestMatch a b alo ahi blo bhi with ⟨i, j, k⟩
      rw [hr, TripleOK_mk] at hok
      simp only [matchTotal]
      rw [hr]
      by_cases hk : k = 0
      · simp only [if_pos hk]
        constructor <;> omega
      · simp only [if_neg hk]
        rcases hok with ⟨h1, h2, h3⟩ | ⟨h1, h2, h3, h4⟩
        · exact absurd h3 hk
        · obtain ⟨ha1, ha2⟩ := ih alo i blo j
          obtain ⟨hb1, hb2⟩ := ih (i + k) ahi (j + k) bhi
          constructor <;> omega

-- Exact rational semantics of the score comparisons.

theorem Score.lt_iff (p q : Score) (hp : 0 < p.den) (hq : 0 < q.den) :
    Score.lt p q = true ↔ p.toRat < q.toRat := by
  unfold Score.lt Score.toRat
  rw [decide_eq_true_eq]
  rw [div_lt_div_iff (by exact_mod_cast hp) (by exact_mod_cast hq)]
  constructor
  · intro h
    exact_mod_cast h
  · intro h
    exact_mod_cast h

theorem Score.thresholdLe_iff (r : Score) (hr : 0 < r.den) :
    Score.thresholdLe r = true ↔ (9 : ℚ) / 10 ≤ r.toRat := by
  unfold Score.thresholdLe Score.toRat
  rw [decide_eq_true_eq]
  rw [div_le_div_iff (by norm_num) (by exact_mod_cast hr)]
  constructor
  · intro h
    have h2 : 9 * r.den ≤ r.num * 10 := by omega
    exact_mod_cast h2
  · intro h
    have h2 : (9 : ℚ) * r.den ≤ r.num * 10 := h
    have h3 : 9 * r.den ≤ r.num * 10 := by exact_mod_cast h2
    omega

theorem Score.toRat_nonneg (p : Score) : 0 ≤ p.toRat :=
  div_nonneg (Nat.cast_nonneg _) (Nat.cast_nonneg _)

theorem Score.toRat_le_one (p : Score) (h : p.num ≤ p.den) (hd : 0 < p.den) :
    p.toRat ≤ 1 := by
  rw [Score.toRat, div_le_one (by exact_mod_cast hd)]
  exact_mod_cast h

theorem seqRatio_den_pos (a b : List Char) : 0 < (seqRatio a b).den := by
  unfold seqRatio
  split
  · decide
  · rename_i h
    simp only []
    omega

theorem seqRatio_num_le_den (a b : List Char) :
    (seqRatio a b).num ≤ (seqRatio a b).den := by
  unfold seqRatio
  split
  · decide
  · rename_i h
    simp only []
    obtain ⟨h1, h2⟩ :=
      matchTotal_le a b (a.length + b.length + 1) 0 a.length 0 b.length
    omega

namespace FH

/-- The per-candidate score computed by get_firefox_urls: ratio 1.0 exactly
when the cleaned candidate title starts with clean_base, else the
SequenceMatcher ratio of clean_base and the cleaned candidate title. -/
def candidateScore (cleanBase title : List Char) : Score :=
  if cleanBase.isPrefixOf (sanitize_for_windows title) then ⟨1, 1⟩
  else seqRatio cleanBase (sanitize_for_windows title)

end FH

theorem candidateScore_den_pos (cleanBase title : List Char) :
    0 < (FH.candidateScore cleanBase title).den := by
  unfold FH.candidateScore
  split
  · decide
  · exact seqRatio_den_pos _ _

theorem candidateScore_num_le_den (cleanBase title : List Char) :
    (FH.candidateScore cleanBase title).num ≤
      (FH.candidateScore cleanBase title).den := by
  unfold FH.candidateScore
  split
  · decide
  · exact seqRatio_num_le_den _ _

theorem candidateScore_unit_interval (cleanBase title : List Char) :
    0 ≤ (FH.candidateScore cleanBase title).toRat ∧
      (FH.candidateScore cleanBase title).toRat ≤ 1 :=
  ⟨Score.toRat_nonneg _,
    Score.toRat_le_one _ (candidateScore_num_le_den cleanBase title)
      (candidateScore_den_pos cleanBase title)⟩

/-- C2: the score of a candidate title against the normalized key is exactly
1.0 when the candidate title, normalized with the same Normalizer, starts
with the key; otherwise it is the gestalt ratio 2*M/T, where M is the total
size of the matching blocks found by find_longest_match and T the total
length of both strings; the score always lies in [0, 1]. -/
theorem matcher_score_prefix_or_gestalt_ratio (cleanBase title : List Char) :
    (cleanBase.isPrefixOf (FH.sanitize_for_windows title) = true →
      (FH.candidateScore cleanBase title).toRat = 1) ∧
    (cleanBase.isPrefixOf (FH.sanitize_for_windows title) = false →
      (FH.candidateScore cleanBase title).toRat =
        2 * (matchTotal cleanBase (FH.sanitize_for_windows title)
              (cleanBase.length + (FH.sanitize_for_windows title).length + 1)
              0 cleanBase.length 0 (FH.sanitize_for_windows title).length : ℚ) /
          ((cleanBase.length : ℚ) + ((FH.sanitize_for_windows title).length : ℚ))) ∧
    0 ≤ (FH.candidateScore cleanBase title).toRat ∧
    (FH.candidateScore cleanBase title).toRat ≤ 1 := by
  refine ⟨?_, ?_, candidateScore_unit_interval cleanBase title⟩
  · intro hpf
    unfold FH.candidateScore
    rw [if_pos hpf]
    unfold Score.toRat
    norm_num
  · intro hpf
    have hbase : cleanBase ≠ [] := by
      intro he
      subst he
      simp [List.isPrefixOf] at hpf
    unfold FH.candidateScore
    rw [if_neg (by rw [hpf]; exact Bool.false_ne_true)]
    unfold seqRatio
    rw [if_neg (by
      intro hz
      exact hbase (List.eq_nil_of_length_eq_zero (by omega)))]
    unfold Score.toRat
    push_cast
    ring

-- The best-of-N candidate selection of FirefoxHistory_stashGUI (C1).

/-- The rational score of one filtered candidate row (title, url). -/
def scoreOf (cleanBase : List Char) (c : List Char × List Char) : ℚ :=
  (FH.candidateScore cleanBase c.1).toRat

namespace FH

/-- The selection loop of get_firefox_urls: best_candidate starts as None
with best_ratio 0.0, and both are replaced exactly when a candidate scores
strictly higher than the current best. -/
def selectLoop (cleanBase : List Char) :
    List (List Char × List Char) → Option (List Char × List Char) × Score →
      Option (List Char × List Char) × Score
  | [], acc => acc
  | c :: rest, acc =>
      if Score.lt acc.2 (candidateScore cleanBase c.1) then
        selectLoop cleanBase rest (some c, candidateScore cleanBase c.1)
      else selectLoop cleanBase rest acc

/-- The value returned by get_firefox_urls after the loop: the single best
candidate when one was recorded (best_candidate truthy) and
best_ratio >= threshold = 0.9; otherwise the empty list. -/
def selectBest (cleanBase : List Char)
    (filtered : List (List Char × List Char)) : List (List Char × List Char) :=
  if ((selectLoop cleanBase filtered (none, ⟨0, 1⟩)).1.isSome &&
      Score.thresholdLe (selectLoop cleanBase filtered (none, ⟨0, 1⟩)).2) then
    (selectLoop cleanBase filtered (none, ⟨0, 1⟩)).1.toList
  else []

/-- The maximal candidate score of a candidate list (0 when it is empty). -/
def maxScoreQ (cleanBase : List Char) (l : List (List Char × List Char)) : ℚ :=
  l.foldl (fun m c => max m (scoreOf cleanBase c)) 0

end FH

theorem foldlMax_init_le (cleanBase : List Char) :
    ∀ (l : List (List Char × List Char)) (a : ℚ),
      a ≤ l.foldl (fun m c => max m (scoreOf cleanBase c)) a := by
  intro l
  induction l with
  | nil => intro a; exact le_refl a
  | cons c rest ih =>
      intro a
      simp only [List.foldl_cons]
      exact le_trans (le_max_left _ _) (ih _)

theorem foldlMax_mem_le (cleanBase : List Char) :
    ∀ (l : List (List Char × List Char)) (a : ℚ) (c : List Char × List Char),
      c ∈ l → scoreOf cleanBase c ≤
        l.foldl (fun m c => max m (scoreOf cleanBase c)) a := by
  intro l
  induction l with
  | nil => intro a c hc; exact absurd hc (List.not_mem_nil c)
  | cons d rest ih =>
      intro a c hc
      simp only [List.foldl_cons]
      rcases List.mem_cons.1 hc with rfl | hc
      · exact le_trans (le_max_right _ _) (foldlMax_init_le cleanBase rest _)
      · exact ih _ c hc

theorem foldlMax_eq_init (cleanBase : List Char) :
    ∀ (l : List (List Char × List Char)) (a : ℚ),
      (∀ c ∈ l, scoreOf cleanBase c ≤ a) →
        l.foldl (fun m c => max m (scoreOf cleanBase c)) a = a := by
  intro l
  induction l with
  | nil => intro a _; rfl
  | cons c rest ih =>
      intro a h
      simp only [List.foldl_cons]
      rw [max_eq_left (h c (List.mem_cons_self _ _))]
      exact ih a (fun d hd => h d (List.mem_cons_of_mem _ hd))

theorem foldlMax_attained (cleanBase : List Char) :
    ∀ (l : List (List Char × List Char)) (a : ℚ),
      l.foldl (fun m c => max m (scoreOf cleanBase c)) a = a ∨
        ∃ c ∈ l, scoreOf cleanBase c =
          l.foldl (fun m c => max m (scoreOf cleanBase c)) a := by
  intro l
  induction l with
  | nil => intro a; exact Or.inl rfl
  | cons c rest ih =>
      intro a
      simp only [List.foldl_cons]
      rcases ih (max a (scoreOf cleanBase c)) with h | ⟨d, hd, hds⟩
      · rw [h]
        rcases le_total (scoreOf cleanBase c) a with hca | hac
        · rw [max_eq_left hca]
          exact Or.inl rfl
        · rw [max_eq_right hac]
          exact Or.inr ⟨c, List.mem_cons_self _ _, rfl⟩
      · exact Or.inr ⟨d, List.mem_cons_of_mem _ hd, hds⟩

theorem selectLoop_den_pos (cleanBase : List Char) :
    ∀ (l : List (List Char × List Char))
      (acc : Option (List Char × List Char) × Score), 0 < acc.2.den →
      0 < (FH.selectLoop cleanBase l acc).2.den := by
  intro l
  induction l with
  | nil => intro acc h; exact h
  | cons c rest ih =>
      intro acc h
      unfold FH.selectLoop
      split
      · exact ih _ (candidateScore_den_pos cleanBase c.1)
      · exact ih _ h

theorem selectLoop_snd (cleanBase : List Char) :
    ∀ (l : List (List Char × List Char))
      (acc : Option (List Char × List Char) × Score), 0 < acc.2.den →
      (FH.selectLoop cleanBase l acc).2.toRat =
        l.foldl (fun m c => max m (scoreOf cleanBase c)) acc.2.toRat := by
  intro l
  induction l with
  | nil => intro acc _; rfl
  | cons c rest ih =>
      intro acc hden
      unfold FH.selectLoop
      simp only [List.foldl_cons]
      split
      · rename_i hlt
        rw [ih _ (candidateScore_den_pos cleanBase c.1)]
        have hlt2 : acc.2.toRat < scoreOf cleanBase c :=
          (Score.lt_iff acc.2 (FH.candidateScore cleanBase c.1) hden
            (candidateScore_den_pos cleanBase c.1)).1 hlt
        rw [max_eq_right (le_of_lt hlt2)]
        rfl
      · rename_i hlt
        rw [ih _ hden]
        have hle : scoreOf cleanBase c ≤ acc.2.toRat := by
          by_contra hgt
          exact hlt ((Score.lt_iff acc.2 (FH.candidateScore cleanBase c.1) hden
            (candidateScore_den_pos cleanBase c.1)).2 (lt_of_not_le hgt))
        rw [max_eq_left hle]

theorem selectLoop_fst_stay (cleanBase : List Char) :
    ∀ (l : List (List Char × List Char))
      (acc : Option (List Char × List Char) × Score), 0 < acc.2.den →
      (∀ c ∈ l, scoreOf cleanBase c ≤ acc.2.toRat) →
      FH.selectLoop cleanBase l acc = acc := by
  intro l
  induction l with
  | nil => intro acc _ _; rfl
  | cons c rest ih =>
      intro acc hden hall
      unfold FH.selectLoop
      split
      · rename_i hlt
        have hlt2 := (Score.lt_iff acc.2 (FH.candidateScore cleanBase c.1) hden
          (candidateScore_den_pos cleanBase c.1)).1 hlt
        exact absurd (hall c (List.mem_cons_self _ _)) (not_le.2 hlt2)
      · exact ih acc hden (fun d hd => hall d (List.mem_cons_of_mem _ hd))

theorem selectLoop_fst_max (cleanBase : List Char) :
    ∀ (l : List (List Char × List Char))
      (acc : Option (List Char × List Char) × Score), 0 < acc.2.den →
      (∃ c ∈ l, acc.2.toRat < scoreOf cleanBase c) →
      (FH.selectLoop cleanBase l acc).1 =
        l.find? (fun c => decide (scoreOf cleanBase c =
          l.foldl (fun m c => max m (scoreOf cleanBase c)) acc.2.toRat)) := by
  intro l
  induction l with
  | nil =>
      intro acc _ hex
      exact absurd hex (by simp)
  | cons c rest ih =>
      intro acc hden hex
      unfold FH.selectLoop
      simp only [List.foldl_cons]
      split
      · rename_i hlt
        have hcden := candidateScore_den_pos cleanBase c.1
        have hlt2 : acc.2.toRat < scoreOf cleanBase c :=
          (Score.lt_iff acc.2 (FH.candidateScore cleanBase c.1)
            hden hcden).1 hlt
        simp only [max_eq_right (le_of_lt hlt2)]
        by_cases hrest : ∃ d ∈ rest, scoreOf cleanBase c < scoreOf cleanBase d
        · have hneg : ¬ (decide (scoreOf cleanBase c =
              List.foldl (fun m e => max m (scoreOf cleanBase e))
                (scoreOf cleanBase c) rest) = true) := by
            rw [decide_eq_true_eq]
            intro heq
            obtain ⟨d, hd, hds⟩ := hrest
            have hle := foldlMax_mem_le cleanBase rest (scoreOf cleanBase c) d hd
            rw [← heq] at hle
            exact absurd hle (not_le.2 hds)
          have hfind : List.find? (fun d => decide (scoreOf cleanBase d =
              List.foldl (fun m e => max m (scoreOf cleanBase e))
                (scoreOf cleanBase c) rest)) (c :: rest) =
              List.find? (fun d => decide (scoreOf cleanBase d =
              List.foldl (fun m e => max m (scoreOf cleanBase e))
                (scoreOf cleanBase c) rest)) rest :=
            List.find?_cons_of_neg _ hneg
          rw [hfind]
          exact ih (some c, FH.candidateScore cleanBase c.1) hcden hrest
        · push_neg at hrest
          rw [selectLoop_fst_stay cleanBase rest
            (some c, FH.candidateScore cleanBase c.1) hcden
            (fun d hd => hrest d hd)]
          have hpos : decide (scoreOf cleanBase c =
              List.foldl (fun m e => max m (scoreOf cleanBase e))
                (scoreOf cleanBase c) rest) = true := by
            rw [decide_eq_true_eq, foldlMax_eq_init cleanBase rest _ hrest]
          have hfind : List.find? (fun d => decide (scoreOf cleanBase d =
              List.foldl (fun m e => max m (scoreOf cleanBase e))
                (scoreOf cleanBase c) rest)) (c :: rest) = some c :=
            List.find?_cons_of_pos _ hpos
          rw [hfind]
      · rename_i hlt
        have hcden := candidateScore_den_pos cleanBase c.1
        have hle : scoreOf cleanBase c ≤ acc.2.toRat := by
          by_contra hgt
          exact hlt ((Score.lt_iff acc.2 (FH.candidateScore cleanBase c.1)
            hden hcden).2 (lt_of_not_le hgt))
        simp only [max_eq_left hle]
        have hex2 : ∃ d ∈ rest, acc.2.toRat < scoreOf cleanBase d := by
          obtain ⟨d, hd, hds⟩ := hex
          rcases List.mem_cons.1 hd with rfl | hd2
          · exact absurd hds (not_lt.2 hle)
          · exact ⟨d, hd2, hds⟩
        have hneg : ¬ (decide (scoreOf cleanBase c =
            List.foldl (fun m e => max m (scoreOf cleanBase e))
              acc.2.toRat rest) = true) := by
          rw [decide_eq_true_eq]
          intro heq
          obtain ⟨d, hd, hds⟩ := hex2
          have hled := foldlMax_mem_le cleanBase rest acc.2.toRat d hd
          rw [← heq] at hled
          exact absurd (lt_of_lt_of_le hds hled) (not_lt.2 hle)
        have hfind : List.find? (fun d => decide (scoreOf cleanBase d =
            List.foldl (fun m e => max m (scoreOf cleanBase e))
              acc.2.toRat rest)) (c :: rest) =
            List.find? (fun d => decide (scoreOf cleanBase d =
            List.foldl (fun m e => max m (scoreOf cleanBase e))
              acc.2.toRat rest)) rest :=
          List.find?_cons_of_neg _ hneg
        rw [hfind]
        exact ih acc hden hex2

namespace US

/-- The final loop of urlstashgui.get_firefox_urls: return the first filtered
candidate whose stored (already normalized) historytitle starts with
clean_base, as a one-element list; otherwise the empty list.  No similarity
ratio and no threshold take part in this variant. -/
def selectPrefixCandidate (cleanBase : List Char) :
    List (List Char × List Char) → List (List Char × List Char)
  | [] => []
  | c :: rest =>
      if cleanBase.isPrefixOf c.1 then [c]
      else selectPrefixCandidate cleanBase rest

end US

theorem usSelect_eq_find (cleanBase : List Char) :
    ∀ l, US.selectPrefixCandidate cleanBase l =
      (l.find? (fun c => cleanBase.isPrefixOf c.1)).toList := by
  intro l
  induction l with
  | nil => rfl
  | cons c rest ih =>
      unfold US.selectPrefixCandidate
      by_cases h : cleanBase.isPrefixOf c.1 = true
      · have hfind : List.find? (fun d => cleanBase.isPrefixOf d.1) (c :: rest) =
            some c := List.find?_cons_of_pos _ h
        rw [if_pos h, hfind]
        rfl
      · have hfind : List.find? (fun d => cleanBase.isPrefixOf d.1) (c :: rest) =
            List.find? (fun d => cleanBase.isPrefixOf d.1) rest :=
          List.find?_cons_of_neg _ h
        rw [if_neg h, hfind, ih]

theorem score_zero_init : (⟨0, 1⟩ : Score).toRat = 0 := by
  norm_num [Score.toRat]

/-- C1 (amended): the FirefoxHistory matcher returns at most one candidate:
the first-seen candidate attaining the strictly highest score, none when the
candidate sequence is empty or the best score is strictly below 0.9, and a
best score exactly equal to 0.9 is accepted; the urlstashgui lookup instead
returns the first candidate whose stored normalized title has the key as a
prefix, with no threshold comparison. -/
theorem matcher_best_of_n (cleanBase : List Char)
    (l : List (List Char × List Char)) :
    (FH.selectBest cleanBase l).length ≤ 1 ∧
    (l = [] → FH.selectBest cleanBase l = []) ∧
    FH.selectBest cleanBase l =
      (if (9 : ℚ) / 10 ≤ FH.maxScoreQ cleanBase l then
        (l.find? (fun c =>
          decide (scoreOf cleanBase c = FH.maxScoreQ cleanBase l))).toList
       else []) ∧
    (US.selectPrefixCandidate cleanBase l).length ≤ 1 ∧
    US.selectPrefixCandidate cleanBase l =
      (l.find? (fun c => cleanBase.isPrefixOf c.1)).toList := by
  have hden0 : (0 : Nat) <
      ((none : Option (List Char × List Char)), (⟨0, 1⟩ : Score)).2.den := by
    decide
  have hdenL := selectLoop_den_pos cleanBase l (none, ⟨0, 1⟩) hden0
  have hsnd := selectLoop_snd cleanBase l (none, ⟨0, 1⟩) hden0
  have hinit : ((none : Option (List Char × List Char)),
      (⟨0, 1⟩ : Score)).2.toRat = 0 := score_zero_init
  rw [hinit] at hsnd
  have hsnd2 : (FH.selectLoop cleanBase l (none, ⟨0, 1⟩)).2.toRat =
      FH.maxScoreQ cleanBase l := hsnd
  have hsel : FH.selectBest cleanBase l =
      (if (9 : ℚ) / 10 ≤ FH.maxScoreQ cleanBase l then
        (l.find? (fun c =>
          decide (scoreOf cleanBase c = FH.maxScoreQ cleanBase l))).toList
       else []) := by
    by_cases hth : (9 : ℚ) / 10 ≤ FH.maxScoreQ cleanBase l
    · rw [if_pos hth]
      have hpos : ∃ c ∈ l, (0 : ℚ) < scoreOf cleanBase c := by
        by_contra hno
        push_neg at hno
        have := foldlMax_eq_init cleanBase l 0 hno
        have hz : FH.maxScoreQ cleanBase l = 0 := this
        rw [hz] at hth
        norm_num at hth
      have hfst := selectLoop_fst_max cleanBase l (none, ⟨0, 1⟩) hden0 (by
        obtain ⟨c, hc, hcpos⟩ := hpos
        exact ⟨c, hc, by rw [hinit]; exact hcpos⟩)
      simp only [hinit] at hfst
      have hfst2 : (FH.selectLoop cleanBase l (none, ⟨0, 1⟩)).1 =
          l.find? (fun c =>
            decide (scoreOf cleanBase c = FH.maxScoreQ cleanBase l)) := hfst
      have hex : ∃ c ∈ l, scoreOf cleanBase c = FH.maxScoreQ cleanBase l := by
        rcases foldlMax_attained cleanBase l 0 with h | h
        · exfalso
          have hz : FH.maxScoreQ cleanBase l = 0 := h
          rw [hz] at hth
          norm_num at hth
        · exact h
      have hisSome : (FH.selectLoop cleanBase l (none, ⟨0, 1⟩)).1.isSome = true := by
        rw [hfst2]
        rw [List.find?_isSome]
        obtain ⟨c, hc, hcs⟩ := hex
        exact ⟨c, hc, by rw [decide_eq_true_eq]; exact hcs⟩
      have hthr : Score.thresholdLe (FH.selectLoop cleanBase l (none, ⟨0, 1⟩)).2 = true :=
        (Score.thresholdLe_iff _ hdenL).2 (by rw [hsnd2]; exact hth)
      unfold FH.selectBest
      rw [hisSome, hthr]
      simp only [Bool.and_self, if_true]
      rw [hfst2]
    · rw [if_neg hth]
      have hthr : Score.thresholdLe (FH.selectLoop cleanBase l (none, ⟨0, 1⟩)).2 = false := by
        cases hcase : Score.thresholdLe (FH.selectLoop cleanBase l (none, ⟨0, 1⟩)).2 with
        | false => rfl
        | true =>
            exfalso
            have := (Score.thresholdLe_iff _ hdenL).1 hcase
            rw [hsnd2] at this
            exact hth this
      unfold FH.selectBest
      rw [hthr]
      simp
  refine ⟨?_, ?_, hsel, ?_, usSelect_eq_find cleanBase l⟩
  · rw [hsel]
    split
    · cases l.find? (fun c =>
        decide (scoreOf cleanBase c = FH.maxScoreQ cleanBase l)) <;> simp
    · simp
  · intro hl
    subst hl
    rfl
  · rw [usSelect_eq_find cleanBase l]
    cases l.find? (fun c => cleanBase.isPrefixOf c.1) <;> simp

set_option maxRecDepth 100000 in
/-- C1 counterexample: a candidate list for the urlstashgui lookup whose
single candidate scores 18/19 (at least the 0.9 threshold) but is not a
prefix match: the claim says the candidate is returned, the urlstashgui
selection returns none — while the FirefoxHistory selection does return it. -/
theorem matcher_claim_fails_on_urlstashgui_lookup :
    (9 : ℚ) / 10 ≤
      (FH.candidateScore (str "abcdefghi") (str "xabcdefghi")).toRat ∧
    US.selectPrefixCandidate (str "abcdefghi")
      [(str "xabcdefghi", str "http://ok.example")] = [] ∧
    FH.selectBest (str "abcdefghi")
      [(str "xabcdefghi", str "http://ok.example")] =
      [(str "xabcdefghi", str "http://ok.example")] := by
  refine ⟨?_, by decide, by decide⟩
  have hden := candidateScore_den_pos (str "abcdefghi") (str "xabcdefghi")
  have hb : Score.thresholdLe
      (FH.candidateScore (str "abcdefghi") (str "xabcdefghi")) = true := by
    decide
  exact (Score.thresholdLe_iff _ hden).1 hb

-- The history lookup pipeline of both variants (C10, C7).

/-- Substring containment, the Python "in" operator on strings: some suffix
of text starts with pattern. -/
def containsSub (pattern : List Char) : List Char → Bool
  | [] => pattern.isEmpty
  | c :: rest => pattern.isPrefixOf (c :: rest) || containsSub pattern rest

/-- SQLite LIKE "%pattern%", case-insensitive on ASCII letters: containment
after lowercasing both sides.  The empty pattern matches every row. -/
def likeContains (pattern text : List Char) : Bool :=
  containsSub (pyLower pattern) (pyLower text)

/-- The four denylisted domain substrings shared by both variants. -/
def denylist : List (List Char) :=
  [str "localhost", str "google.com", str "tgtube.com", str "dinotube.com"]

/-- The post-query filter shared by both variants: url truthy, no denylisted
domain occurs in the lowercased url, and title truthy. -/
def passesDeny (r : List Char × List Char) : Bool :=
  !r.2.isEmpty && denylist.all (fun d => !(containsSub d (pyLower r.2))) &&
    !r.1.isEmpty

namespace FH

/-- get_firefox_urls of FirefoxHistory_stashGUI as a function of the rows of
moz_places (title, url): strip the trailing dash-digit suffix, clean the base
filename, probe with the first three characters of clean_base against the
url column (LIKE), drop denylisted domains and empty titles, then run the
best-of-N scored selection with threshold 0.9. -/
def get_firefox_urls (base_filename : List Char)
    (rows : List (List Char × List Char)) : List (List Char × List Char) :=
  let clean_base := sanitize_for_windows (stripDashDigits base_filename)
  let substring := clean_base.take 3
  let results := rows.filter (fun r => likeContains substring r.2)
  let filtered := results.filter passesDeny
  selectBest clean_base filtered

end FH

namespace US

/-- urlstashgui.clean_filename: strip a ".mp4" extension, then a trailing
dash-two-digit suffix, then keep alphanumerics lowercased. -/
def clean_filename (filename : List Char) : List Char :=
  let filename :=
    if (str ".mp4").isSuffixOf (pyLower filename) then
      filename.take (filename.length - 4)
    else filename
  sanitize_for_windows (remove_dash_number_suffix filename)

/-- get_firefox_urls of urlstashgui as a function of the rows of
browser_hist (historytitle, url): clean the base filename, probe with the
whole clean_base against the historytitle column (LIKE), drop denylisted
domains and empty titles, then return the first prefix-matching candidate. -/
def get_firefox_urls (base_filename : List Char)
    (rows : List (List Char × List Char)) : List (List Char × List Char) :=
  let clean_base := clean_filename base_filename
  let results := rows.filter (fun r => likeContains clean_base r.1)
  let filtered := results.filter passesDeny
  selectPrefixCandidate clean_base filtered

end US

/-- Outcome of the database access that precedes the pure pipeline: the
sqlite connect may raise, the query may raise, and the urlstashgui variant
first checks that the database file exists.  (In the FirefoxHistory variant
a missing file makes the query on the fresh empty database raise, which the
same except-branch catches.) -/
inductive StoreOutcome
  | missingFile
  | connectError
  | queryError
  | ok (rows : List (List Char × List Char))

namespace FH

/-- get_firefox_urls with its error handling: every exception from the
History Store is caught and the function returns []. -/
def get_firefox_urls_io (base_filename : List Char) (st : StoreOutcome) :
    List (List Char × List Char) :=
  match st with
  | .missingFile => []
  | .connectError => []
  | .queryError => []
  | .ok rows => get_firefox_urls base_filename rows

end FH

namespace US

/-- get_firefox_urls of urlstashgui with its error handling: a missing
database file, a connect exception or a query exception each yield []. -/
def get_firefox_urls_io (base_filename : List Char) (st : StoreOutcome) :
    List (List Char × List Char) :=
  match st with
  | .missingFile => []
  | .connectError => []
  | .queryError => []
  | .ok rows => get_firefox_urls base_filename rows

end US

/-- C7: a store-connectivity failure or a query failure yields the empty
candidate sequence in both variants, and no exception propagates: the
lookups are total functions into plain candidate lists, and on a successful
query they run the pure pipeline. -/
theorem lookup_failure_yields_empty (base : List Char) :
    (∀ st : StoreOutcome, (∀ rows, st ≠ StoreOutcome.ok rows) →
      FH.get_firefox_urls_io base st = [] ∧
        US.get_firefox_urls_io base st = []) ∧
    (∀ rows, FH.get_firefox_urls_io base (StoreOutcome.ok rows) =
        FH.get_firefox_urls base rows ∧
      US.get_firefox_urls_io base (StoreOutcome.ok rows) =
        US.get_firefox_urls base rows) := by
  constructor
  · intro st hst
    cases st with
    | missingFile => exact ⟨rfl, rfl⟩
    | connectError => exact ⟨rfl, rfl⟩
    | queryError => exact ⟨rfl, rfl⟩
    | ok rows => exact absurd rfl (hst rows)
  · intro rows
    exact ⟨rfl, rfl⟩

theorem containsSub_nil (x : List Char) : containsSub [] x = true := by
  cases x <;> rfl

theorem likeContains_nil (x : List Char) : likeContains [] x = true := by
  unfold likeContains pyLower
  exact containsSub_nil _

theorem score_one_one : (⟨1, 1⟩ : Score).toRat = 1 := by
  norm_num [Score.toRat]

theorem nil_isPrefixOf (x : List Char) :
    ([] : List Char).isPrefixOf x = true := by
  cases x <;> rfl

theorem candidateScore_nil_key (t : List Char) :
    FH.candidateScore [] t = ⟨1, 1⟩ := by
  unfold FH.candidateScore
  rw [if_pos (nil_isPrefixOf _)]

theorem selectBest_nil_key (l : List (List Char × List Char)) :
    FH.selectBest [] l = l.take 1 := by
  cases l with
  | nil => rfl
  | cons c rest =>
      have hloop : FH.selectLoop [] (c :: rest) (none, ⟨0, 1⟩) =
          (some c, ⟨1, 1⟩) := by
        unfold FH.selectLoop
        rw [candidateScore_nil_key]
        rw [if_pos (by decide)]
        apply selectLoop_fst_stay [] rest (some c, ⟨1, 1⟩) Nat.one_pos
        intro d hd
        rw [show ((some c : Option (List Char × List Char)),
          (⟨1, 1⟩ : Score)).2.toRat = 1 from score_one_one]
        exact (candidateScore_unit_interval [] d.1).2
      unfold FH.selectBest
      rw [hloop]
      rfl

theorem selectPrefix_nil_key (l : List (List Char × List Char)) :
    US.selectPrefixCandidate [] l = l.take 1 := by
  cases l with
  | nil => rfl
  | cons c rest =>
      unfold US.selectPrefixCandidate
      rw [if_pos (nil_isPrefixOf _)]
      rfl

/-- C10: when the cleaned base filename is empty, the substring probe is
empty and the LIKE query matches every row; the prefix test is vacuously
true, so each lookup returns the first row that survives the domain/title
filter (scored 1.0 in the FirefoxHistory variant) rather than returning no
candidate.  The concrete instances show the behaviour on the all-punctuation
filename "!!". -/
theorem empty_key_returns_first_candidate (base : List Char)
    (rows : List (List Char × List Char)) :
    (FH.sanitize_for_windows (stripDashDigits base) = [] →
      FH.get_firefox_urls base rows = (rows.filter passesDeny).take 1 ∧
      ∀ r ∈ rows.filter passesDeny, (FH.candidateScore [] r.1).toRat = 1) ∧
    (US.clean_filename base = [] →
      US.get_firefox_urls base rows = (rows.filter passesDeny).take 1) ∧
    FH.get_firefox_urls (str "!!") [(str "title", str "url")] =
      [(str "title", str "url")] ∧
    US.get_firefox_urls (str "!!") [(str "title", str "url")] =
      [(str "title", str "url")] := by
  refine ⟨?_, ?_, by decide, by decide⟩
  · intro h
    constructor
    · have hunfold : FH.get_firefox_urls base rows =
          FH.selectBest (FH.sanitize_for_windows (stripDashDigits base))
            ((rows.filter (fun r => likeContains
              ((FH.sanitize_for_windows (stripDashDigits base)).take 3)
              r.2)).filter passesDeny) := rfl
      rw [hunfold, h]
      have hlam : (fun r : List Char × List Char =>
          likeContains (List.take 3 []) r.2) = fun _ => true := by
        funext r
        exact likeContains_nil r.2
      rw [hlam, List.filter_true]
      exact selectBest_nil_key _
    · intro r _
      rw [candidateScore_nil_key]
      exact score_one_one
  · intro h
    have hunfold : US.get_firefox_urls base rows =
        US.selectPrefixCandidate (US.clean_filename base)
          ((rows.filter (fun r => likeContains (US.clean_filename base)
            r.1)).filter passesDeny) := rfl
    rw [hunfold, h]
    have hlam : (fun r : List Char × List Char =>
        likeContains [] r.1) = fun _ => true := by
      funext r
      exact likeContains_nil r.1
    rw [hlam, List.filter_true]
    exact selectPrefix_nil_key _

-- The scene scanner (C3, C4, C5).

/-- Number of scenes loaded per block in both variants. -/
def TARGET_SCENE_COUNT : Nat := 10

/-- One entry of a scene's urls field: the Catalog Service may deliver it as
a bare string or as an object with a url key (possibly absent). -/
inductive UrlEntry
  | bare (u : List Char)
  | obj (u : Option (List Char))
  deriving DecidableEq, Repr

/-- The url of an entry as read by the duplicate checks:
url_obj.get("url", "") for a dict, the string itself otherwise. -/
def UrlEntry.url : UrlEntry → List Char
  | .bare u => u
  | .obj u => u.getD []

/-- A scene record as read from the Catalog Service.  The integer-or-bool
organized flag of the service is modelled as a Bool (both variants test it
for truthiness / equality with 1). -/
structure Scene where
  id : Nat
  files : List (List Char)
  urls : List UrlEntry
  organized : Bool
  deriving DecidableEq, Repr

/-- os.path.basename: the part of the path after the last separator. -/
def basename (p : List Char) : List Char :=
  (p.reverse.takeWhile (fun c => !(c == '/') && !(c == '\\'))).reverse

/-- The root part of os.path.splitext: drop the extension that begins at the
last dot, unless every character before that dot is itself a dot (then there
is no extension and the name is kept whole). -/
def splitextRoot (s : List Char) : List Char :=
  match s.reverse.dropWhile (fun c => !(c == '.')) with
  | '.' :: rest => if rest.all (fun c => c == '.') then s else rest.reverse
  | _ => s

/-- The Catalog Service as seen by one scan: find_scene by id. -/
structure Catalog where
  find : Nat → Option Scene

/-- Classification of one fetched scene, mirroring the branch taken by the
scan loops (the specification's MatchAcceptanceResult: guardFail is the
prefix-guard branch it calls SkippedNoCandidate, ineligible is the backward
scan's has-urls-or-organized skip). -/
inductive ScanResult
  | organizedSkip
  | ineligible
  | noFile
  | noCandidate
  | guardFail
  | duplicateUrl
  | accepted
  deriving DecidableEq, Repr

namespace FH

/-- Classification of one found scene in the forward loop of
_load_scenes_thread (FirefoxHistory variant): no-file check, history lookup,
prefix guard on the sanitized title and sanitized base filename, then the
duplicate-url check, in that order. -/
def forwardStep (rows : List (List Char × List Char)) (scene : Scene) :
    ScanResult :=
  match scene.files with
  | [] => .noFile
  | f :: _ =>
      match get_firefox_urls (splitextRoot (basename f)) rows with
      | [] => .noCandidate
      | (t, u) :: _ =>
          if (sanitize_for_windows (splitextRoot (basename f))).isPrefixOf
              (sanitize_for_windows t) then
            if scene.urls.any (fun e => e.url == u) then .duplicateUrl
            else .accepted
          else .guardFail

/-- Classification of one found scene in _load_scenes_backward_thread:
scenes with existing urls or the organized flag are ineligible outright, and
the prefix guard compares the raw candidate title with the raw base
filename (no normalization). -/
def backwardStep (rows : List (List Char × List Char)) (scene : Scene) :
    ScanResult :=
  if !scene.urls.isEmpty || scene.organized then .ineligible
  else
    match scene.files with
    | [] => .noFile
    | f :: _ =>
        match get_firefox_urls (splitextRoot (basename f)) rows with
        | [] => .noCandidate
        | (t, _u) :: _ =>
            if (splitextRoot (basename f)).isPrefixOf t then .accepted
            else .guardFail

/-- The forward scan loop of the FirefoxHistory variant: it runs until the
batch is full, with no stop at the maximum scene id (fuel counts loop
iterations; none models a loop that is still running after that many). -/
def forwardLoop (cat : Catalog) (rows : List (List Char × List Char)) :
    Nat → Nat → List Scene → Option (List Scene × Nat)
  | 0, _, _ => none
  | fuel + 1, sid, acc =>
      if TARGET_SCENE_COUNT ≤ acc.length then some (acc, sid)
      else
        match cat.find sid with
        | none => forwardLoop cat rows fuel (sid + 1) acc
        | some scene =>
            match forwardStep rows scene with
            | .accepted => forwardLoop cat rows fuel (sid + 1) (acc ++ [scene])
            | _ => forwardLoop cat rows fuel (sid + 1) acc

/-- The backward scan loop: while the batch is not full and sid > 0; the
cursor retreats by one per step and next_start is max(sid, 1) on exit. -/
def backwardLoop (cat : Catalog) (rows : List (List Char × List Char)) :
    Nat → Nat → List Scene → Option (List Scene × Nat)
  | 0, _, _ => none
  | fuel + 1, sid, acc =>
      if TARGET_SCENE_COUNT ≤ acc.length ∨ sid = 0 then
        some (acc, if 0 < sid then sid else 1)
      else
        match cat.find sid with
        | none => backwardLoop cat rows fuel (sid - 1) acc
        | some scene =>
            match backwardStep rows scene with
            | .accepted => backwardLoop cat rows fuel (sid - 1) (acc ++ [scene])
            | _ => backwardLoop cat rows fuel (sid - 1) acc

end FH

namespace US

/-- Classification of one found scene in the forward loop of urlstashgui's
_load_scenes_thread: organized check (when the skip-organized box is set),
no-file check, history lookup, then the duplicate-url check; there is no
separate prefix guard in the scanner (the lookup itself only returns prefix
matches). -/
def forwardStep (skipOrganized : Bool) (rows : List (List Char × List Char))
    (scene : Scene) : ScanResult :=
  if skipOrganized && scene.organized then .organizedSkip
  else
    match scene.files with
    | [] => .noFile
    | f :: _ =>
        match get_firefox_urls (splitextRoot (basename f)) rows with
        | [] => .noCandidate
        | (_t, u) :: _ =>
            if scene.urls.any (fun e => e.url == u) then .duplicateUrl
            else .accepted

/-- The forward scan loop of urlstashgui: as the FirefoxHistory one, but
when a scene id is not found and the maximum id is known, the loop breaks
once the (already incremented) cursor exceeds that maximum. -/
def forwardLoop (cat : Catalog) (maxId : Option Nat) (skipOrganized : Bool)
    (rows : List (List Char × List Char)) :
    Nat → Nat → List Scene → Option (List Scene × Nat)
  | 0, _, _ => none
  | fuel + 1, sid, acc =>
      if TARGET_SCENE_COUNT ≤ acc.length then some (acc, sid)
      else
        match cat.find sid with
        | none =>
            match maxId with
            | some m =>
                if m < sid + 1 then some (acc, sid + 1)
                else forwardLoop cat maxId skipOrganized rows fuel (sid + 1) acc
            | none => forwardLoop cat maxId skipOrganized rows fuel (sid + 1) acc
        | some scene =>
            match forwardStep skipOrganized rows scene with
            | .accepted =>
                forwardLoop cat maxId skipOrganized rows fuel (sid + 1)
                  (acc ++ [scene])
            | _ => forwardLoop cat maxId skipOrganized rows fuel (sid + 1) acc

end US

theorem usForwardLoop_zero (cat : Catalog) (maxId : Option Nat)
    (skipOrganized : Bool) (rows : List (List Char × List Char))
    (sid : Nat) (acc : List Scene) :
    US.forwardLoop cat maxId skipOrganized rows 0 sid acc = none := rfl

theorem usForwardLoop_succ (cat : Catalog) (maxId : Option Nat)
    (skipOrganized : Bool) (rows : List (List Char × List Char))
    (fuel sid : Nat) (acc : List Scene) :
    US.forwardLoop cat maxId skipOrganized rows (fuel + 1) sid acc =
      (if TARGET_SCENE_COUNT ≤ acc.length then some (acc, sid)
       else
        match cat.find sid with
        | none =>
            match maxId with
            | some m =>
                if m < sid + 1 then some (acc, sid + 1)
                else US.forwardLoop cat maxId skipOrganized rows fuel (sid + 1) acc
            | none => US.forwardLoop cat maxId skipOrganized rows fuel (sid + 1) acc
        | some scene =>
            match US.forwardStep skipOrganized rows scene with
            | .accepted =>
                US.forwardLoop cat maxId skipOrganized rows fuel (sid + 1)
                  (acc ++ [scene])
            | _ => US.forwardLoop cat maxId skipOrganized rows fuel (sid + 1) acc) :=
  rfl

theorem usForward_length_le (cat : Catalog) (maxId : Option Nat)
    (skipOrganized : Bool) (rows : List (List Char × List Char)) :
    ∀ fuel sid acc l n, acc.length ≤ TARGET_SCENE_COUNT →
      US.forwardLoop cat maxId skipOrganized rows fuel sid acc = some (l, n) →
      l.length ≤ TARGET_SCENE_COUNT := by
  intro fuel
  induction fuel with
  | zero =>
      intro sid acc l n hacc h
      rw [usForwardLoop_zero] at h
      exact Option.noConfusion h
  | succ fuel ih =>
      intro sid acc l n hacc h
      rw [usForwardLoop_succ] at h
      split at h
      · simp only [Option.some.injEq, Prod.mk.injEq] at h
        obtain ⟨rfl, rfl⟩ := h
        exact hacc
      · rename_i hfull
        rcases hfind : cat.find sid with _ | scene
        · rw [hfind] at h
          dsimp only at h
          rcases maxId with _ | m
          · exact ih (sid + 1) acc l n hacc h
          · dsimp only at h
            split at h
            · simp only [Option.some.injEq, Prod.mk.injEq] at h
              obtain ⟨rfl, rfl⟩ := h
              exact hacc
            · exact ih (sid + 1) acc l n hacc h
        · rw [hfind] at h
          dsimp only at h
          cases hstep : US.forwardStep skipOrganized rows scene <;>
            rw [hstep] at h <;> dsimp only at h
          case accepted =>
            refine ih (sid + 1) (acc ++ [scene]) l n ?_ h
            simp only [List.length_append, List.length_cons, List.length_nil]
            omega
          all_goals exact ih (sid + 1) acc l n hacc h

theorem fhForward_length_le (cat : Catalog)
    (rows : List (List Char × List Char)) :
    ∀ fuel sid acc l n, acc.length ≤ TARGET_SCENE_COUNT →
      FH.forwardLoop cat rows fuel sid acc = some (l, n) →
      l.length ≤ TARGET_SCENE_COUNT := by
  intro fuel
  induction fuel with
  | zero =>
      intro sid acc l n hacc h
      simp [FH.forwardLoop] at h
  | succ fuel ih =>
      intro sid acc l n hacc h
      unfold FH.forwardLoop at h
      split at h
      · simp only [Option.some.injEq, Prod.mk.injEq] at h
        obtain ⟨rfl, rfl⟩ := h
        exact hacc
      · rename_i hfull
        rcases hfind : cat.find sid with _ | scene
        · rw [hfind] at h
          dsimp only at h
          exact ih (sid + 1) acc l n hacc h
        · rw [hfind] at h
          dsimp only at h
          cases hstep : FH.forwardStep rows scene <;>
            rw [hstep] at h <;> dsimp only at h
          case accepted =>
            refine ih (sid + 1) (acc ++ [scene]) l n ?_ h
            simp only [List.length_append, List.length_cons, List.length_nil]
            omega
          all_goals exact ih (sid + 1) acc l n hacc h

theorem fhBackward_length_le (cat : Catalog)
    (rows : List (List Char × List Char)) :
    ∀ fuel sid acc l n, acc.length ≤ TARGET_SCENE_COUNT →
      FH.backwardLoop cat rows fuel sid acc = some (l, n) →
      l.length ≤ TARGET_SCENE_COUNT := by
  intro fuel
  induction fuel with
  | zero =>
      intro sid acc l n hacc h
      simp [FH.backwardLoop] at h
  | succ fuel ih =>
      intro sid acc l n hacc h
      unfold FH.backwardLoop at h
      split at h
      · simp only [Option.some.injEq, Prod.mk.injEq] at h
        obtain ⟨rfl, -⟩ := h
        exact hacc
      · rename_i hterm
        rcases hfind : cat.find sid with _ | scene
        · rw [hfind] at h
          dsimp only at h
          exact ih (sid - 1) acc l n hacc h
        · rw [hfind] at h
          dsimp only at h
          cases hstep : FH.backwardStep rows scene <;>
            rw [hstep] at h <;> dsimp only at h
          case accepted =>
            refine ih (sid - 1) (acc ++ [scene]) l n ?_ h
            simp only [List.length_append, List.length_cons, List.length_nil]
            omega
          all_goals exact ih (sid - 1) acc l n hacc h

theorem usForward_terminates (cat : Catalog) (m : Nat) (skipOrganized : Bool)
    (rows : List (List Char × List Char))
    (hwf : ∀ id, m < id → cat.find id = none) :
    ∀ fuel sid acc, m + 2 ≤ fuel + sid → 1 ≤ fuel →
      (US.forwardLoop cat (some m) skipOrganized rows fuel sid acc).isSome
        = true := by
  intro fuel
  induction fuel with
  | zero =>
      intro sid acc h1 h2
      exact absurd h2 (by omega)
  | succ fuel ih =>
      intro sid acc h1 h2
      rw [usForwardLoop_succ]
      split
      · rfl
      · rcases hfind : cat.find sid with _ | scene
        · dsimp only
          split
          · rfl
          · rename_i hlt
            exact ih (sid + 1) acc (by omega) (by omega)
        · have hsid : sid ≤ m := by
            by_contra hgt
            push_neg at hgt
            rw [hwf sid hgt] at hfind
            exact Option.noConfusion hfind
          dsimp only
          cases hstep : US.forwardStep skipOrganized rows scene <;> dsimp only
          case accepted =>
            exact ih (sid + 1) (acc ++ [scene]) (by omega) (by omega)
          all_goals exact ih (sid + 1) acc (by omega) (by omega)

theorem fhBackward_terminates (cat : Catalog)
    (rows : List (List Char × List Char)) :
    ∀ fuel sid acc, sid + 1 ≤ fuel →
      (FH.backwardLoop cat rows fuel sid acc).isSome = true := by
  intro fuel
  induction fuel with
  | zero =>
      intro sid acc h1
      exact absurd h1 (by omega)
  | succ fuel ih =>
      intro sid acc h1
      unfold FH.backwardLoop
      split
      · rfl
      · rename_i hterm
        push_neg at hterm
        rcases hfind : cat.find sid with _ | scene
        · dsimp only
          exact ih (sid - 1) acc (by omega)
        · dsimp only
          cases hstep : FH.backwardStep rows scene <;> dsimp only
          case accepted => exact ih (sid - 1) (acc ++ [scene]) (by omega)
          all_goals exact ih (sid - 1) acc (by omega)

/-- A catalog with no scenes at all. -/
def emptyCatalog : Catalog := ⟨fun _ => none⟩

/-- C3 counterexample: the forward scan of the FirefoxHistory variant has no
stop at the maximum scene id: on the empty catalog, 100 loop iterations from
cursor 1 leave the scan still running (the cursor is far past any maximum
id), where the claim says every forward scan stops once the cursor exceeds
the last-known maximum.  The urlstashgui forward scan on the same catalog
with known maximum id 0 stops at once with an empty batch. -/
theorem forward_scan_no_max_stop :
    FH.forwardLoop emptyCatalog [] 100 1 [] = none ∧
    US.forwardLoop emptyCatalog (some 0) true [] 2 1 [] = some ([], 2) := by
  exact ⟨by decide, by decide⟩

/-- C3 (amended): the number of collected scenes never exceeds the batch
target in any of the three scan loops; the backward scan always terminates
by the time the cursor reaches the floor; the urlstashgui forward scan
terminates on a well-formed catalog once the cursor exceeds the last-known
maximum id; the FirefoxHistory forward scan has no maximum-id stop (see the
counterexample) and terminates only when the batch fills. -/
theorem scan_batch_bound_and_termination (cat : Catalog) (m : Nat)
    (skipOrganized : Bool) (rows : List (List Char × List Char)) :
    ((∀ id, m < id → cat.find id = none) →
      ∀ fuel sid acc, m + 2 ≤ fuel + sid → 1 ≤ fuel →
        (US.forwardLoop cat (some m) skipOrganized rows fuel sid acc).isSome
          = true) ∧
    (∀ fuel sid acc, sid + 1 ≤ fuel →
      (FH.backwardLoop cat rows fuel sid acc).isSome = true) ∧
    (∀ fuel sid acc l n, acc.length ≤ TARGET_SCENE_COUNT →
      US.forwardLoop cat (some m) skipOrganized rows fuel sid acc = some (l, n) →
        l.length ≤ TARGET_SCENE_COUNT) ∧
    (∀ fuel sid acc l n, acc.length ≤ TARGET_SCENE_COUNT →
      FH.forwardLoop cat rows fuel sid acc = some (l, n) →
        l.length ≤ TARGET_SCENE_COUNT) ∧
    (∀ fuel sid acc l n, acc.length ≤ TARGET_SCENE_COUNT →
      FH.backwardLoop cat rows fuel sid acc = some (l, n) →
        l.length ≤ TARGET_SCENE_COUNT) :=
  ⟨fun hwf => usForward_terminates cat m skipOrganized rows hwf,
   fhBackward_terminates cat rows,
   usForward_length_le cat (some m) skipOrganized rows,
   fhForward_length_le cat rows,
   fhBackward_length_le cat rows⟩

-- The duplicate-url check and the prefix guard (C4, C5).

theorem usForward_mem_sound (cat : Catalog) (maxId : Option Nat)
    (skipOrganized : Bool) (rows : List (List Char × List Char)) :
    ∀ fuel sid acc l n,
      US.forwardLoop cat maxId skipOrganized rows fuel sid acc = some (l, n) →
      ∀ s ∈ l, s ∈ acc ∨ US.forwardStep skipOrganized rows s = .accepted := by
  intro fuel
  induction fuel with
  | zero =>
      intro sid acc l n h
      rw [usForwardLoop_zero] at h
      exact Option.noConfusion h
  | succ fuel ih =>
      intro sid acc l n h
      rw [usForwardLoop_succ] at h
      split at h
      · simp only [Option.some.injEq, Prod.mk.injEq] at h
        obtain ⟨rfl, rfl⟩ := h
        exact fun s hs => Or.inl hs
      · rcases hfind : cat.find sid with _ | scene
        · rw [hfind] at h
          dsimp only at h
          rcases maxId with _ | m
          · exact ih (sid + 1) acc l n h
          · dsimp only at h
            split at h
            · simp only [Option.some.injEq, Prod.mk.injEq] at h
              obtain ⟨rfl, rfl⟩ := h
              exact fun s hs => Or.inl hs
            · exact ih (sid + 1) acc l n h
        · rw [hfind] at h
          dsimp only at h
          cases hstep : US.forwardStep skipOrganized rows scene <;>
            rw [hstep] at h <;> dsimp only at h
          case accepted =>
            intro s hs
            rcases ih (sid + 1) (acc ++ [scene]) l n h s hs with hmem | hacc
            · rcases List.mem_append.mp hmem with h1 | h1
              · exact Or.inl h1
              · rcases List.mem_singleton.mp h1 with rfl
                exact Or.inr hstep
            · exact Or.inr hacc
          all_goals exact ih (sid + 1) acc l n h

theorem fhForward_mem_sound (cat : Catalog)
    (rows : List (List Char × List Char)) :
    ∀ fuel sid acc l n,
      FH.forwardLoop cat rows fuel sid acc = some (l, n) →
      ∀ s ∈ l, s ∈ acc ∨ FH.forwardStep rows s = .accepted := by
  intro fuel
  induction fuel with
  | zero =>
      intro sid acc l n h
      simp [FH.forwardLoop] at h
  | succ fuel ih =>
      intro sid acc l n h
      unfold FH.forwardLoop at h
      split at h
      · simp only [Option.some.injEq, Prod.mk.injEq] at h
        obtain ⟨rfl, rfl⟩ := h
        exact fun s hs => Or.inl hs
      · rcases hfind : cat.find sid with _ | scene
        · rw [hfind] at h
          dsimp only at h
          exact ih (sid + 1) acc l n h
        · rw [hfind] at h
          dsimp only at h
          cases hstep : FH.forwardStep rows scene <;>
            rw [hstep] at h <;> dsimp only at h
          case accepted =>
            intro s hs
            rcases ih (sid + 1) (acc ++ [scene]) l n h s hs with hmem | hacc
            · rcases List.mem_append.mp hmem with h1 | h1
              · exact Or.inl h1
              · rcases List.mem_singleton.mp h1 with rfl
                exact Or.inr hstep
            · exact Or.inr hacc
          all_goals exact ih (sid + 1) acc l n h

theorem fhBackward_mem_sound (cat : Catalog)
    (rows : List (List Char × List Char)) :
    ∀ fuel sid acc l n,
      FH.backwardLoop cat rows fuel sid acc = some (l, n) →
      ∀ s ∈ l, s ∈ acc ∨ FH.backwardStep rows s = .accepted := by
  intro fuel
  induction fuel with
  | zero =>
      intro sid acc l n h
      simp [FH.backwardLoop] at h
  | succ fuel ih =>
      intro sid acc l n h
      unfold FH.backwardLoop at h
      split at h
      · simp only [Option.some.injEq, Prod.mk.injEq] at h
        obtain ⟨rfl, -⟩ := h
        exact fun s hs => Or.inl hs
      · rcases hfind : cat.find sid with _ | scene
        · rw [hfind] at h
          dsimp only at h
          exact ih (sid - 1) acc l n h
        · rw [hfind] at h
          dsimp only at h
          cases hstep : FH.backwardStep rows scene <;>
            rw [hstep] at h <;> dsimp only at h
          case accepted =>
            intro s hs
            rcases ih (sid - 1) (acc ++ [scene]) l n h s hs with hmem | hacc
            · rcases List.mem_append.mp hmem with h1 | h1
              · exact Or.inl h1
              · rcases List.mem_singleton.mp h1 with rfl
                exact Or.inr hstep
            · exact Or.inr hacc
          all_goals exact ih (sid - 1) acc l n h

theorem usStep_duplicate (skipOrganized : Bool)
    (rows : List (List Char × List Char)) (scene : Scene)
    (f : List Char) (fs : List (List Char)) (t u : List Char)
    (cs : List (List Char × List Char))
    (horg : (skipOrganized && scene.organized) = false)
    (hf : scene.files = f :: fs)
    (hlook : US.get_firefox_urls (splitextRoot (basename f)) rows = (t, u) :: cs)
    (hdup : scene.urls.any (fun e => e.url == u) = true) :
    US.forwardStep skipOrganized rows scene = .duplicateUrl := by
  unfold US.forwardStep
  rw [if_neg]
  · rw [hf]
    dsimp only
    rw [hlook]
    dsimp only
    rw [if_pos hdup]
  · simp [horg]

theorem fhStep_duplicate (rows : List (List Char × List Char)) (scene : Scene)
    (f : List Char) (fs : List (List Char)) (t u : List Char)
    (cs : List (List Char × List Char))
    (hf : scene.files = f :: fs)
    (hlook : FH.get_firefox_urls (splitextRoot (basename f)) rows = (t, u) :: cs)
    (hguard : (FH.sanitize_for_windows (splitextRoot (basename f))).isPrefixOf
        (FH.sanitize_for_windows t) = true)
    (hdup : scene.urls.any (fun e => e.url == u) = true) :
    FH.forwardStep rows scene = .duplicateUrl := by
  unfold FH.forwardStep
  rw [hf]
  dsimp only
  rw [hlook]
  dsimp only
  rw [if_pos hguard, if_pos hdup]

/-- C4 (amended): when the duplicate check is reached, a candidate url equal
(exact equality) to any existing url entry — bare string or object — yields
the duplicate classification, and no scene so classified is ever collected:
in the urlstashgui forward scan the check is reached whenever a candidate is
found, but in the FirefoxHistory forward scan only after its prefix guard
passes (see the counterexample), and the backward scan skips every scene
with existing urls outright, before any candidate is looked up. -/
theorem duplicate_url_skip :
    (∀ u, (UrlEntry.bare u).url = u ∧ (UrlEntry.obj (some u)).url = u) ∧
    (∀ skipOrganized rows scene f fs t u cs,
      (skipOrganized && scene.organized) = false →
      scene.files = f :: fs →
      US.get_firefox_urls (splitextRoot (basename f)) rows = (t, u) :: cs →
      scene.urls.any (fun e => e.url == u) = true →
      US.forwardStep skipOrganized rows scene = .duplicateUrl) ∧
    (∀ rows scene f fs t u cs,
      scene.files = f :: fs →
      FH.get_firefox_urls (splitextRoot (basename f)) rows = (t, u) :: cs →
      (FH.sanitize_for_windows (splitextRoot (basename f))).isPrefixOf
          (FH.sanitize_for_windows t) = true →
      scene.urls.any (fun e => e.url == u) = true →
      FH.forwardStep rows scene = .duplicateUrl) ∧
    (∀ cat maxId skipOrganized rows fuel sid l n,
      US.forwardLoop cat maxId skipOrganized rows fuel sid [] = some (l, n) →
      ∀ s ∈ l, US.forwardStep skipOrganized rows s ≠ .duplicateUrl) ∧
    (∀ cat rows fuel sid l n,
      FH.forwardLoop cat rows fuel sid [] = some (l, n) →
      ∀ s ∈ l, FH.forwardStep rows s ≠ .duplicateUrl) ∧
    (∀ rows scene, scene.urls ≠ [] →
      FH.backwardStep rows scene = .ineligible) := by
  refine ⟨fun u => ⟨rfl, rfl⟩,
    fun so rows scene f fs t u cs horg hf hlook hdup =>
      usStep_duplicate so rows scene f fs t u cs horg hf hlook hdup,
    fun rows scene f fs t u cs hf hlook hguard hdup =>
      fhStep_duplicate rows scene f fs t u cs hf hlook hguard hdup,
    fun cat maxId so rows fuel sid l n h s hs => ?_,
    fun cat rows fuel sid l n h s hs => ?_,
    fun rows scene hurls => ?_⟩
  · rcases usForward_mem_sound cat maxId so rows fuel sid [] l n h s hs with
      h1 | h1
    · exact absurd h1 (List.not_mem_nil s)
    · rw [h1]
      decide
  · rcases fhForward_mem_sound cat rows fuel sid [] l n h s hs with h1 | h1
    · exact absurd h1 (List.not_mem_nil s)
    · rw [h1]
      decide
  · unfold FH.backwardStep
    rw [if_pos]
    simp [List.isEmpty_iff, hurls]

/-- Scene used by the C4 counterexample: one file, one already attached url,
not organized. -/
def c4Scene : Scene :=
  ⟨1, [str "abc-01.mp4"], [UrlEntry.bare (str "http://abc.example/v")], false⟩

/-- History rows used by the C4 counterexample. -/
def c4Rows : List (List Char × List Char) :=
  [(str "abcxyz", str "http://abc.example/v")]

set_option maxRecDepth 100000 in
/-- C4 counterexample: a scanned scene in the FirefoxHistory forward scan
whose found candidate url is exactly equal to an already attached url (as a
bare string), yet the scene is classified by the prefix-guard branch, not as
a duplicate: the guard runs first and fails, so the claimed duplicate
classification never happens. -/
theorem duplicate_claim_fails_on_forward_guard :
    c4Scene.urls.any (fun e => e.url == str "http://abc.example/v") = true ∧
    FH.get_firefox_urls (splitextRoot (basename (str "abc-01.mp4"))) c4Rows
      = [(str "abcxyz", str "http://abc.example/v")] ∧
    FH.forwardStep c4Rows c4Scene = .guardFail ∧
    ScanResult.guardFail ≠ ScanResult.duplicateUrl :=
  ⟨by decide, by decide, by decide, by decide⟩

theorem fhStep_accepted_guard (rows : List (List Char × List Char))
    (scene : Scene) (f : List Char) (fs : List (List Char)) (t u : List Char)
    (cs : List (List Char × List Char))
    (hf : scene.files = f :: fs)
    (hlook : FH.get_firefox_urls (splitextRoot (basename f)) rows = (t, u) :: cs)
    (h : FH.forwardStep rows scene = .accepted) :
    (FH.sanitize_for_windows (splitextRoot (basename f))).isPrefixOf
        (FH.sanitize_for_windows t) = true := by
  unfold FH.forwardStep at h
  rw [hf] at h
  dsimp only at h
  rw [hlook] at h
  dsimp only at h
  split at h
  · rename_i hguard
    exact hguard
  · exact absurd h (by decide)

theorem fhStep_guardFail (rows : List (List Char × List Char)) (scene : Scene)
    (f : List Char) (fs : List (List Char)) (t u : List Char)
    (cs : List (List Char × List Char))
    (hf : scene.files = f :: fs)
    (hlook : FH.get_firefox_urls (splitextRoot (basename f)) rows = (t, u) :: cs)
    (hguard : (FH.sanitize_for_windows (splitextRoot (basename f))).isPrefixOf
        (FH.sanitize_for_windows t) = false) :
    FH.forwardStep rows scene = .guardFail := by
  unfold FH.forwardStep
  rw [hf]
  dsimp only
  rw [hlook]
  dsimp only
  rw [if_neg]
  simp [hguard]

theorem fhBackStep_accepted_raw (rows : List (List Char × List Char))
    (scene : Scene) (f : List Char) (fs : List (List Char)) (t u : List Char)
    (cs : List (List Char × List Char))
    (hf : scene.files = f :: fs)
    (hlook : FH.get_firefox_urls (splitextRoot (basename f)) rows = (t, u) :: cs)
    (h : FH.backwardStep rows scene = .accepted) :
    (splitextRoot (basename f)).isPrefixOf t = true := by
  unfold FH.backwardStep at h
  split at h
  · exact absurd h (by decide)
  · rw [hf] at h
    dsimp only at h
    rw [hlook] at h
    dsimp only at h
    split at h
    · rename_i hguard
      exact hguard
    · exact absurd h (by decide)

theorem fhBackStep_rawFail (rows : List (List Char × List Char))
    (scene : Scene) (f : List Char) (fs : List (List Char)) (t u : List Char)
    (cs : List (List Char × List Char))
    (helig : (!scene.urls.isEmpty || scene.organized) = false)
    (hf : scene.files = f :: fs)
    (hlook : FH.get_firefox_urls (splitextRoot (basename f)) rows = (t, u) :: cs)
    (hguard : (splitextRoot (basename f)).isPrefixOf t = false) :
    FH.backwardStep rows scene = .guardFail := by
  unfold FH.backwardStep
  rw [if_neg]
  · rw [hf]
    dsimp only
    rw [hlook]
    dsimp only
    rw [if_neg]
    simp [hguard]
  · simp [helig]

/-- C5 (amended): in the FirefoxHistory forward scan a scene with a found
candidate is accepted only if the candidate's normalized title has the
scene's normalized base filename as a prefix, a failing guard classifies it
by the guard branch, and no guard-failing scene is ever collected.  In the
backward scan the guard instead compares the RAW candidate title with the
RAW base filename; an accepted scene passes that raw guard, and a raw-guard
failure is skipped and never collected — but acceptance there does not imply
the claimed normalized guard (see the counterexample). -/
theorem prefix_guard_acceptance :
    (∀ rows scene f fs t u cs,
      scene.files = f :: fs →
      FH.get_firefox_urls (splitextRoot (basename f)) rows = (t, u) :: cs →
      FH.forwardStep rows scene = .accepted →
      (FH.sanitize_for_windows (splitextRoot (basename f))).isPrefixOf
          (FH.sanitize_for_windows t) = true) ∧
    (∀ rows scene f fs t u cs,
      scene.files = f :: fs →
      FH.get_firefox_urls (splitextRoot (basename f)) rows = (t, u) :: cs →
      (FH.sanitize_for_windows (splitextRoot (basename f))).isPrefixOf
          (FH.sanitize_for_windows t) = false →
      FH.forwardStep rows scene = .guardFail) ∧
    (∀ cat rows fuel sid l n,
      FH.forwardLoop cat rows fuel sid [] = some (l, n) →
      ∀ s ∈ l, FH.forwardStep rows s ≠ .guardFail) ∧
    (∀ rows scene f fs t u cs,
      scene.files = f :: fs →
      FH.get_firefox_urls (splitextRoot (basename f)) rows = (t, u) :: cs →
      FH.backwardStep rows scene = .accepted →
      (splitextRoot (basename f)).isPrefixOf t = true) ∧
    (∀ rows scene f fs t u cs,
      (!scene.urls.isEmpty || scene.organized) = false →
      scene.files = f :: fs →
      FH.get_firefox_urls (splitextRoot (basename f)) rows = (t, u) :: cs →
      (splitextRoot (basename f)).isPrefixOf t = false →
      FH.backwardStep rows scene = .guardFail) ∧
    (∀ cat rows fuel sid l n,
      FH.backwardLoop cat rows fuel sid [] = some (l, n) →
      ∀ s ∈ l, FH.backwardStep rows s ≠ .guardFail) := by
  refine ⟨fun rows scene f fs t u cs hf hlook h =>
      fhStep_accepted_guard rows scene f fs t u cs hf hlook h,
    fun rows scene f fs t u cs hf hlook hguard =>
      fhStep_guardFail rows scene f fs t u cs hf hlook hguard,
    fun cat rows fuel sid l n h s hs => ?_,
    fun rows scene f fs t u cs hf hlook h =>
      fhBackStep_accepted_raw rows scene f fs t u cs hf hlook h,
    fun rows scene f fs t u cs helig hf hlook hguard =>
      fhBackStep_rawFail rows scene f fs t u cs helig hf hlook hguard,
    fun cat rows fuel sid l n h s hs => ?_⟩
  · rcases fhForward_mem_sound cat rows fuel sid [] l n h s hs with h1 | h1
    · exact absurd h1 (List.not_mem_nil s)
    · rw [h1]
      decide
  · rcases fhBackward_mem_sound cat rows fuel sid [] l n h s hs with h1 | h1
    · exact absurd h1 (List.not_mem_nil s)
    · rw [h1]
      decide

/-- Scene used by the C5 counterexample: a file whose extensionless base
still ends in ".mp", no urls, not organized. -/
def c5Scene : Scene := ⟨5, [str "abcdefghij.mp.mp4"], [], false⟩

/-- History rows used by the C5 counterexample: the stored title raw-extends
the base filename, but its normalized form is shorter than the normalized
base (".mp4" stripping), so the normalized guard fails while the gestalt
score 20/22 still clears the 0.9 threshold. -/
def c5Rows : List (List Char × List Char) :=
  [(str "abcdefghij.mp4", str "http://abc.example/v")]

set_option maxRecDepth 100000 in
/-- C5 counterexample: the backward scan accepts a scene whose candidate
fails the normalized prefix guard the claim asserts for both scan
directions: the raw title extends the raw base filename, but the normalized
title does not extend the normalized base filename. -/
theorem prefix_guard_claim_fails_backward :
    FH.backwardStep c5Rows c5Scene = .accepted ∧
    (FH.sanitize_for_windows
        (splitextRoot (basename (str "abcdefghij.mp.mp4")))).isPrefixOf
      (FH.sanitize_for_windows (str "abcdefghij.mp4")) = false :=
  ⟨by decide, by decide⟩

-- The update applier (C8).

/-- find_tag(name, create=True) as issued by both accept threads. -/
structure TagRequest where
  name : List Char
  create : Bool
  deriving DecidableEq, Repr

/-- The update_scene payload: both variants send the scene id and the tag
ids of the looked-up marker tag; urlstashgui sends a urls list, the
FirefoxHistory variant a single url field. -/
structure UpdatePayload where
  id : Nat
  urls : Option (List UrlEntry)
  url : Option (List Char)
  tag : TagRequest
  deriving DecidableEq, Repr

/-- What one iteration of an accept thread does with one scene. -/
inductive AcceptAction
  | skippedUnchecked
  | skippedDuplicate
  | skippedInvalidUrl
  | update (payload : UpdatePayload)
  deriving DecidableEq, Repr

namespace US

/-- One iteration of urlstashgui's _accept_candidates_thread: checkbox,
startswith http, duplicate check over bare strings and url objects, then
update_scene with urls = existing + [selected] (the new url appended as a
bare string) and the tag_ids of find_tag("URLHistory", create=True). -/
def acceptStep (checked : Bool) (scene : Scene) (selected : List Char) :
    AcceptAction :=
  if !checked then .skippedUnchecked
  else if (str "http").isPrefixOf selected then
    if !scene.urls.isEmpty && scene.urls.any (fun e => e.url == selected) then
      .skippedDuplicate
    else
      .update ⟨scene.id, some (scene.urls ++ [UrlEntry.bare selected]), none,
        ⟨str "URLHistory", true⟩⟩
  else .skippedInvalidUrl

end US

namespace FH

/-- One iteration of FirefoxHistory_stashGUI's _accept_candidates_thread:
checkbox, duplicate check, startswith http, then update_scene with the
single field url = selected (no urls list is sent) and the tag_ids of
find_tag("URLHistory", create=True). -/
def acceptStep (checked : Bool) (scene : Scene) (selected : List Char) :
    AcceptAction :=
  if !checked then .skippedUnchecked
  else if !scene.urls.isEmpty && scene.urls.any (fun e => e.url == selected) then
    .skippedDuplicate
  else if (str "http").isPrefixOf selected then
    .update ⟨scene.id, none, some selected, ⟨str "URLHistory", true⟩⟩
  else .skippedInvalidUrl

end FH

/-- C8 (amended): when the urlstashgui applier accepts a scene its update
appends the candidate url to the existing list — every existing entry is
preserved and the candidate added — and attaches the tag URLHistory with
create set; the FirefoxHistory applier attaches the same tag but sends a
single url field and no urls list, so nothing in its update preserves the
existing urls (see the counterexample). -/
theorem applier_appends_and_tags :
    (∀ scene selected p, US.acceptStep true scene selected = .update p →
      p.id = scene.id ∧
      p.urls = some (scene.urls ++ [UrlEntry.bare selected]) ∧
      p.url = none ∧
      p.tag = ⟨str "URLHistory", true⟩) ∧
    (∀ scene selected p l, US.acceptStep true scene selected = .update p →
      p.urls = some l →
      (∀ e ∈ scene.urls, e ∈ l) ∧ UrlEntry.bare selected ∈ l) ∧
    (∀ scene selected p, FH.acceptStep true scene selected = .update p →
      p.id = scene.id ∧
      p.urls = none ∧
      p.url = some selected ∧
      p.tag = ⟨str "URLHistory", true⟩) := by
  have hus : ∀ scene selected p,
      US.acceptStep true scene selected = .update p →
      p = ⟨scene.id, some (scene.urls ++ [UrlEntry.bare selected]), none,
        ⟨str "URLHistory", true⟩⟩ := by
    intro scene selected p h
    unfold US.acceptStep at h
    rw [if_neg (by simp)] at h
    split at h
    · split at h
      · exact absurd h (by simp)
      · simp only [AcceptAction.update.injEq] at h
        exact h.symm
    · exact absurd h (by simp)
  refine ⟨fun scene selected p h => ?_, fun scene selected p l h hl => ?_,
    fun scene selected p h => ?_⟩
  · rw [hus scene selected p h]
    exact ⟨rfl, rfl, rfl, rfl⟩
  · rw [hus scene selected p h] at hl
    simp only [Option.some.injEq] at hl
    subst hl
    exact ⟨fun e he => List.mem_append.mpr (Or.inl he),
      List.mem_append.mpr (Or.inr (List.mem_singleton.mpr rfl))⟩
  · unfold FH.acceptStep at h
    rw [if_neg (by simp)] at h
    split at h
    · exact absurd h (by simp)
    · split at h
      · simp only [AcceptAction.update.injEq] at h
        rw [← h]
        exact ⟨rfl, rfl, rfl, rfl⟩
      · exact absurd h (by simp)

/-- Scene used by the C8 counterexample: it already carries one url. -/
def c8Scene : Scene := ⟨3, [], [UrlEntry.bare (str "http://old.example/a")], false⟩

/-- C8 counterexample: the FirefoxHistory applier, accepting a checked scene
that already has a url, sends an update whose urls list is absent and whose
single url field is the new candidate: the existing url appears nowhere in
the update, so it is not preserved as the claim states. -/
theorem applier_claim_fails_on_fh_update :
    FH.acceptStep true c8Scene (str "http://new.example/b")
      = .update ⟨3, none, some (str "http://new.example/b"),
          ⟨str "URLHistory", true⟩⟩ ∧
    (UpdatePayload.mk 3 none (some (str "http://new.example/b"))
        ⟨str "URLHistory", true⟩).urls = none ∧
    (str "http://new.example/b") ≠ (str "http://old.example/a") :=
  ⟨by decide, rfl, by decide⟩
